import Mathlib

/-!
Verification of the `flat` Go package (rvflash/flat): a shallow embedding of
its data model and algorithms, followed by theorems about the embedded code.

Modelling conventions:
* A Go `map[string]interface{}` is embedded as an association list
  `List (String × Value)` whose order stands in for one iteration order;
  a Go `nil` map and an empty map both embed as `[]` (they behave identically
  under `len`, `range` and indexing in this package).
* Go strings are Lean `String`s; Go `[]rune` is `String.data : List Char`
  (Go's byte-wise string order coincides with code-point order for UTF-8,
  so `sort.Strings` is the ascending reordering under code-point order).
* A Go `float64` value is embedded as `FloatLit`, identified by the canonical
  text `strconv.FormatFloat(f, 'g', -1, 64)` produces for it (that rendering
  is injective, since it round-trips through `strconv.ParseFloat`).
* External standard-library collaborators that the package merely delegates to
  (numeric string parsing, the name-casing routine `naming.SnakeCase`) are
  either modelled from their documented behaviour (`goParseBool`, `SnakeCase`)
  or passed as parameters (the numeric parsers `pf`, `pi`, `pu` and the
  float-to-integer truncations `f2i`, `f2u`).
* Fallible Go code (`value, error` returns) is embedded as `Except Err _`;
  a Go runtime panic (the type assertion inside `expanded`'s `mv`) is
  embedded as `Option.none`.
-/

namespace Flat

/-! ## Basic helpers: association lists, joining, ordering -/

/-- Key membership test for an association list (a Go `_, ok := m[k]` probe). -/
def hasKey : List (String × α) → String → Bool
  | [], _ => false
  | (k', _) :: rest, k => k' == k || hasKey rest k

/-- Indexing an association list (a Go `v, ok := m[k]` read). -/
def assocGet : List (String × α) → String → Option α
  | [], _ => none
  | (k', v') :: rest, k => if k' == k then some v' else assocGet rest k

/-- Map assignment `m[k] = v`: overwrite in place if the key exists, otherwise
append a new entry (the appended position models insertion order). -/
def assocSet (m : List (String × α)) (k : String) (v : α) : List (String × α) :=
  if hasKey m k then m.map (fun p => if p.1 == k then (k, v) else p) else m ++ [(k, v)]

/-- Models Go `strings.Join(l, sep)`. -/
def goJoin (sep : String) : List String → String
  | [] => ""
  | [s] => s
  | s :: rest => s ++ sep ++ goJoin sep rest

/-- A prefix test on character lists, models Go `strings.HasPrefix` (first
argument is the candidate prefix). -/
def hasPref : List Char → List Char → Bool
  | [], _ => true
  | _ :: _, [] => false
  | a :: as, b :: bs => a == b && hasPref as bs

/-- Models Go `strings.TrimPrefix(s, p)`: drop `p` from the front of `s` when
it is a prefix, otherwise return `s` unchanged. -/
def trimPref (s p : String) : String :=
  if hasPref p.data s.data then String.mk (s.data.drop p.data.length) else s

/-- Lexicographic (code-point) order on character lists; `charListLe a b` is
`a ≤ b` in the order Go's `sort.Strings` sorts by. -/
def charListLe : List Char → List Char → Bool
  | [], _ => true
  | _ :: _, [] => false
  | a :: as, b :: bs => if a = b then charListLe as bs else decide (a < b)

/-- Insert a string into a list sorted ascending by `charListLe`. -/
def insertSorted (s : String) : List String → List String
  | [] => [s]
  | t :: ts => if charListLe s.data t.data then s :: t :: ts else t :: insertSorted s ts

/-- Models Go `sort.Strings`: the ascending reordering of the list (insertion
sort; the result is the unique sorted permutation, so the algorithm used by
Go's sort package produces the same list). -/
def sortStrings : List String → List String
  | [] => []
  | s :: ss => insertSorted s (sortStrings ss)

/-- Length of the longest common prefix of two character lists: exactly the
index `i` computed by the scanning loop in `commonPrefix` (src/d.go:173-176),
which stops at the first divergence or at the length of the shorter list. -/
def lcpLen : List Char → List Char → Nat
  | a :: as, b :: bs => if a = b then lcpLen as bs + 1 else 0
  | _, _ => 0

/-! ## The dynamic value model -/

/-- A Go `float64` value, identified by its canonical shortest round-tripping
decimal rendering (the text `strconv.FormatFloat(f, 'g', -1, 64)` yields). -/
structure FloatLit where
  text : String
deriving DecidableEq

/-- The dynamic values a decoded document may hold (src/d.go:64-72):
`nil`, `bool`, `float64`, `json.Number`, `string`, `[]interface{}` and
`map[string]interface{}`. -/
inductive Value where
  | null : Value
  | bool (b : Bool) : Value
  | float (f : FloatLit) : Value
  | num (s : String) : Value
  | str (s : String) : Value
  | arr (elems : List Value) : Value
  | obj (fields : List (String × Value)) : Value

/-- The underlying map of a `D` (field `D.D` in src/d.go:85-91). -/
abbrev Doc := List (String × Value)

/-- A flattened, single-level map. -/
abbrev FlatMap := List (String × Value)

/-- Go dynamic type names as they appear in `newErrOutOfRange`'s `%T` output. -/
inductive GoTy where
  | tyBool : GoTy
  | tyFloat64 : GoTy
  | tyInt64 : GoTy
  | tyUint64 : GoTy
  | tyString : GoTy
  | tyStringSlice : GoTy
  | tyNumber : GoTy
  | tyNull : GoTy
  | tyArr : GoTy
  | tyObj : GoTy
deriving DecidableEq

/-- The Go dynamic type of a value, as reported by `%T` in error messages. -/
def tyOf : Value → GoTy
  | .null => .tyNull
  | .bool _ => .tyBool
  | .float _ => .tyFloat64
  | .num _ => .tyNumber
  | .str _ => .tyString
  | .arr _ => .tyArr
  | .obj _ => .tyObj

/-! ## The scalar formatter (src/format.go:19-38) -/

mutual

/-- `fmtString` from src/format.go:19-38: renders a dynamic value to its XML
text form; arrays recurse and join with the array separator, unhandled types
(null, maps, and anything else) give the empty string. -/
def fmtString : Value → String → String
  | .arr d, sep => goJoin sep (fmtStrings d sep)
  | .bool b, _ => if b then "true" else "false"
  | .float f, _ => f.text
  | .str s, _ => s
  | .num s, _ => s
  | _, _ => ""

/-- Element-wise `fmtString` over an array's elements, in order. -/
def fmtStrings : List Value → String → List String
  | [], _ => []
  | v :: vs, sep => fmtString v sep :: fmtStrings vs sep

end

/-! ## Flattening (src/d.go:99-181) -/

/-- `levelSep` from src/d.go:94. -/
def levelSep : String := " "

/-- `rootName` from src/d.go:95. -/
def rootName : String := ""

/-- `keySep` from src/d.go:96. -/
def keySep : Char := '_'

mutual

/-- The loop body of `flatten` (src/d.go:114-135): walk the entries in order,
skipping ignored normalized keys, merging flattened sub-maps, and assigning
leaves. `norm` is the external name-casing collaborator `naming.SnakeCase`. -/
def flattenLoop (norm : String → String) (ign : List String) : Doc → String → FlatMap → FlatMap
  | [], _, out => out
  | (k, v) :: rest, root, out =>
    let fk := norm (root ++ levelSep ++ k)
    if ign.contains fk then flattenLoop norm ign rest root out
    else flattenLoop norm ign rest root (flattenEntry norm ign fk v out)

/-- The switch inside `flatten`'s loop (src/d.go:125-132): a nested map is
flattened recursively and its entries copied into `out`; any other value is
assigned directly under the normalized key. -/
def flattenEntry (norm : String → String) (ign : List String) (fk : String) : Value → FlatMap → FlatMap
  | .obj d2, out => ( flattenLoop norm ign d2 fk []).foldl (fun o kv => assocSet o kv.1 kv.2) out
  | v, out => assocSet out fk v

end

/-- `flatten` from src/d.go:114-135. -/
def flatten (norm : String → String) (m : Doc) (ign : List String) (root : String) : FlatMap :=
  flattenLoop norm ign m root []

/-- `commonPrefix` from src/d.go:149-181: with fewer than two entries there is
no prefix; otherwise sort the keys, scan the first and last sorted key as rune
lists to the first divergence `i`, and accept `r1[:i]` only when `i > 0` and
the rune just before the cut is the key separator. -/
def commonPrefix (m : FlatMap) : String :=
  if m.length ≤ 1 then ""
  else
    let x := sortStrings (m.map Prod.fst)
    let r1 := (x.headD "").data
    let r2 := (x.getLastD "").data
    let i := lcpLen r1 r2
    if i == 0 || !(r1.getD (i - 1) ' ' == keySep) then "" else String.mk (r1.take i)

/-- `simplify` from src/d.go:137-147: strip the validated common prefix from
every key; when there is none, return the map unchanged. -/
def simplify (m : FlatMap) : FlatMap :=
  let p := commonPrefix m
  if p == "" then m
  else m.foldl (fun out kv => assocSet out (trimPref kv.1 p) kv.2) []

/-- `Flatten` from src/d.go:103-112: `nil` for an empty map, otherwise build
the normalized ignore set, flatten from the root and compress the common
prefix. `norm` is the external `naming.SnakeCase` collaborator. -/
def Flatten (norm : String → String) (d : Doc) (ignoredKeys : List (List String)) : Option FlatMap :=
  if d.isEmpty then none
  else
    let ign := ignoredKeys.map (fun v => norm (goJoin levelSep v))
    some (simplify (flatten norm d ign rootName))

/-- Split a character list into maximal alphanumeric words (accumulator holds
the current word reversed). -/
def wordsAux : List Char → List Char → List (List Char)
  | [], [] => []
  | [], acc => [acc.reverse]
  | c :: cs, acc =>
    if c.isAlphanum then wordsAux cs (c :: acc)
    else if acc.isEmpty then wordsAux cs []
    else acc.reverse :: wordsAux cs []

/-- Modelled from the spec: the Key Normalizer, an external collaborator
(`naming.SnakeCase` from github.com/rvflash/naming, not part of this
repository's sources). Per the spec it canonicalizes a space-separated path of
name segments into one snake_case key: split into maximal alphanumeric words,
lowercase them, and join with `'_'`. -/
def SnakeCase (s : String) : String :=
  goJoin "_" ((wordsAux s.data []).map (fun w => String.mk (w.map Char.toLower)))

/-! ## Errors (src/errors.go) and the coercion layer (src/format.go) -/

/-- The `Err` field of a Go `strconv.NumError`: `strconv.ErrSyntax` or
`strconv.ErrRange`. -/
inductive NumErrKind where
  | errSyn : NumErrKind
  | errRange : NumErrKind
deriving DecidableEq

/-- A Go `strconv.NumError` (external stdlib error shape: the failing
function, the literal, and which sentinel error occurred). -/
structure StrconvError where
  fn : String
  num : String
  kind : NumErrKind
deriving DecidableEq

/-- The errors this package's fallible operations produce: `ErrNotFound`
(src/errors.go:18), a `newErrOutOfRange` wrap of `ErrOutOfRange` carrying the
expected and actual types (src/errors.go:23-25), or an error of the external
`strconv` package returned as-is by the string-parsing branches of the
coercions. -/
inductive Err where
  | notFound : Err
  | outOfRange (expected got : GoTy) : Err
  | parseFail (e : StrconvError) : Err
deriving DecidableEq

/-- A string-parsing external collaborator (a `strconv.Parse*` function). -/
abbrev StrParse (α : Type) := String → Except StrconvError α

/-- Modelled from the Go standard library's documented `strconv.ParseBool`
(external collaborator): accepts exactly 1, t, T, TRUE, true, True, 0, f, F,
FALSE, false, False; anything else is a syntax error. -/
def goParseBool (s : String) : Except Err Bool :=
  if s == "1" || s == "t" || s == "T" || s == "TRUE" || s == "true" || s == "True" then .ok true
  else if s == "0" || s == "f" || s == "F" || s == "FALSE" || s == "false" || s == "False" then .ok false
  else .error (.parseFail ⟨"ParseBool", s, .errSyn⟩)

/-- `toBool` from src/format.go:40-50: native booleans pass, strings go to
`strconv.ParseBool` (whose error is returned unchanged), all else is a
type mismatch. -/
def toBool : Value → Except Err Bool
  | .bool v => .ok v
  | .str v => goParseBool v
  | v => .error (.outOfRange .tyBool (tyOf v))

/-- `toFloat64` from src/format.go:52-64: native floats pass; `json.Number`
and strings go to `strconv.ParseFloat` (parameter `pf`), whose error is
returned unchanged; all else is a type mismatch. -/
def toFloat64 (pf : StrParse FloatLit) : Value → Except Err FloatLit
  | .float v => .ok v
  | .num v => (pf v).mapError Err.parseFail
  | .str v => (pf v).mapError Err.parseFail
  | v => .error (.outOfRange .tyFloat64 (tyOf v))

/-- `toInt64` from src/format.go:66-78: native floats are truncated (the Go
conversion `int64(v)`, parameter `f2i`); `json.Number` and strings go to
`strconv.ParseInt` (parameter `pi`), whose error is returned unchanged; all
else is a type mismatch. -/
def toInt64 (pi : StrParse Int) (f2i : FloatLit → Int) : Value → Except Err Int
  | .float v => .ok (f2i v)
  | .num v => (pi v).mapError Err.parseFail
  | .str v => (pi v).mapError Err.parseFail
  | v => .error (.outOfRange .tyInt64 (tyOf v))

/-- `toString` from src/format.go:80-86: ONLY a native string passes; every
other value (including `json.Number`) is a type mismatch. -/
def toString : Value → Except Err String
  | .str s => .ok s
  | v => .error (.outOfRange .tyString (tyOf v))

/-- `toUint64` from src/format.go:88-100: native floats are converted
(parameter `f2u`); `json.Number` and strings go to `strconv.ParseUint`
(parameter `pu`), whose error is returned unchanged; all else is a type
mismatch. -/
def toUint64 (pu : StrParse Nat) (f2u : FloatLit → Nat) : Value → Except Err Nat
  | .float v => .ok (f2u v)
  | .num v => (pu v).mapError Err.parseFail
  | .str v => (pu v).mapError Err.parseFail
  | v => .error (.outOfRange .tyUint64 (tyOf v))

/-! ## Lookup and the typed getters (src/d.go:185-205, 336-418) -/

/-- The descent loop of `Lookup` (src/d.go:194-203): at each step the current
value must be a map and the key present, else `ErrNotFound`. -/
def lookupWalk : Value → List String → Except Err Value
  | v, [] => .ok v
  | v, k :: ks =>
    match v with
    | .obj m =>
      match assocGet m k with
      | some v' => lookupWalk v' ks
      | none => .error .notFound
    | _ => .error .notFound

/-- `Lookup` from src/d.go:185-205: an empty key list fails `ErrNotFound`
immediately, otherwise descend from the document's root map. -/
def Lookup (d : Doc) (keys : List String) : Except Err Value :=
  if keys.isEmpty then .error .notFound else lookupWalk (.obj d) keys

/-- `Bool` getter (src/d.go:338-344): `Lookup` then `toBool`. -/
def DBool (d : Doc) (keys : List String) : Except Err Bool :=
  (Lookup d keys).bind toBool

/-- `Float64` getter (src/d.go:348-354): `Lookup` then `toFloat64`. -/
def DFloat64 (pf : StrParse FloatLit) (d : Doc) (keys : List String) : Except Err FloatLit :=
  (Lookup d keys).bind (toFloat64 pf)

/-- `Int64` getter (src/d.go:358-364): `Lookup` then `toInt64`. -/
def DInt64 (pi : StrParse Int) (f2i : FloatLit → Int) (d : Doc) (keys : List String) : Except Err Int :=
  (Lookup d keys).bind (toInt64 pi f2i)

/-- `String` getter (src/d.go:368-374): `Lookup` then `toString`. -/
def DString (d : Doc) (keys : List String) : Except Err String :=
  (Lookup d keys).bind toString

/-- `Uint64` getter (src/d.go:412-418): `Lookup` then `toUint64`. -/
def DUint64 (pu : StrParse Nat) (f2u : FloatLit → Nat) (d : Doc) (keys : List String) : Except Err Nat :=
  (Lookup d keys).bind (toUint64 pu f2u)

/-- The element loop of `Strings` (src/d.go:387-393): coerce each element via
`toString` in order; the first failure aborts the whole call. -/
def strsOf : List Value → Except Err (List String)
  | [] => .ok []
  | v :: vs => (toString v).bind (fun s => (strsOf vs).map (fun rest => s :: rest))

/-- `Strings` from src/d.go:377-395: `Lookup`, require an array (else a
type mismatch against `[]string`), then coerce every element via `toString`. -/
def Strings (d : Doc) (keys : List String) : Except Err (List String) :=
  (Lookup d keys).bind (fun m =>
    match m with
    | .arr v => strsOf v
    | v => .error (.outOfRange .tyStringSlice (tyOf v)))

/-- `Time` from src/d.go:398-408: `Lookup`, then `toString`, then the external
`time.Parse` collaborator, passed as the parameter `tparse` over opaque time
and error types (this package never inspects either). A `Lookup` or
`toString` failure returns that error (`Sum.inl`); a layout-parse failure is
surfaced as-is (`Sum.inr`), a shape distinct from the package's own two error
kinds. -/
def DTime {τ ε : Type} (tparse : String → String → Except ε τ) (layout : String)
    (d : Doc) (keys : List String) : Except (Err ⊕ ε) τ :=
  match Lookup d keys with
  | .error e => .error (.inl e)
  | .ok m =>
    match toString m with
    | .error e => .error (.inl e)
    | .ok s => (tparse layout s).mapError Sum.inr

/-! ## XML marshalling (src/d.go:228-334)

The byte encoding itself is delegated to Go's `encoding/xml`; the embedding
works at the token level that package exchanges with this code: start
elements, character data and end elements. A leaf with empty text encodes as
`<k></k>`, whose decoded token stream carries no character-data token, which
the `encodeLeaf` conditional reflects. Namespace handling (`xmlName` with the
root's attribute bindings, src/d.go:329-334) is modelled for namespace-free
documents, where `xmlName` is the identity on local names. -/

/-- An XML token as exchanged with `encoding/xml`. -/
inductive Token where
  | start (name : String) : Token
  | chardata (s : String) : Token
  | endElem (name : String) : Token

/-- `xmlLevelSep` from src/d.go:326. -/
def xmlLevelSep : String := ">"

/-- The token stream `enc.Encode(charData{XMLName: k, Value: s})`
(src/d.go:259) produces: start, the text when non-empty, end. -/
def encodeLeaf (k s : String) : List Token :=
  if s == "" then [.start k, .endElem k] else [.start k, .chardata s, .endElem k]

mutual

/-- `marshallXML` from src/d.go:249-266 at the token level: emit the start
element, the body for each entry in order, and the end element. -/
def marshallXML : Doc → String → String → List Token
  | m, name, sep => .start name :: (marshallBody m sep ++ [.endElem name])

/-- The entry loop of `marshallXML` (src/d.go:254-264): nested maps recurse
as nested elements; any other value becomes a leaf element whose text is
`fmtString`. -/
def marshallBody : Doc → String → List Token
  | [], _ => []
  | (k, v) :: rest, sep =>
    (match v with
     | .obj d => marshallXML d k sep
     | v => encodeLeaf k (fmtString v sep)) ++ marshallBody rest sep

end

/-- `MarshalXML` from src/d.go:234-242: an empty (or nil) map emits nothing;
otherwise the root element carries the configured name. -/
def marshalXML (name sep : String) (d : Doc) : List Token :=
  if d.isEmpty then [] else marshallXML d name sep

/-- The decoder loop state of `UnmarshalXML` (src/d.go:278-282): the element
name stack, the path-entry map, the last character data, and the `grow` flag
recording whether the closing element had a nested start since it opened. -/
structure UState where
  tree : List String
  temp : List (String × String)
  data : String
  grow : Bool

/-- One iteration of `UnmarshalXML`'s token loop (src/d.go:283-298): push on
start (setting `grow`), remember character data, and on end pop the stack and
record a path entry only for a genuine leaf (`grow` still set). -/
def ustep (st : UState) : Token → UState
  | .start n => { st with tree := st.tree ++ [n], grow := true }
  | .chardata s => { st with data := s }
  | .endElem _ =>
    let name := st.tree.getLastD ""
    let tr := st.tree.dropLast
    if st.grow then
      { tree := tr,
        temp := assocSet st.temp (goJoin xmlLevelSep (tr ++ [name])) st.data,
        data := st.data, grow := false }
    else { st with tree := tr }

/-- Run the decoder loop over a token stream. -/
def runTokens (st : UState) (toks : List Token) : UState :=
  toks.foldl ustep st

/-- Split a character list at each `'>'` (the accumulator holds the current
segment reversed). -/
def splitPathAux : List Char → List Char → List (List Char)
  | [], acc => [acc.reverse]
  | c :: cs, acc => if c == '>' then acc.reverse :: splitPathAux cs [] else splitPathAux cs (c :: acc)

/-- Models Go `strings.Split(s, ">")` (src/d.go:318). -/
def splitPath (s : String) : List String :=
  (splitPathAux s.data []).map String.mk

/-- The `mv` walk plus final assignment of `expanded` (src/d.go:306-319):
descend along `walk` creating missing intermediate maps, then assign the leaf
under `key`. An existing intermediate that is not a map makes Go's type
assertion panic, embedded as `none`. -/
def mvAssign : Doc → List String → String → String → Option Doc
  | out, [], key, v => some (assocSet out key (.str v))
  | out, w :: rest, key, v =>
    match assocGet out w with
    | some (.obj inner) => (mvAssign inner rest key v).map (fun i => assocSet out w (.obj i))
    | some _ => none
    | none => (mvAssign [] rest key v).map (fun i => assocSet out w (.obj i))

/-- `expanded` from src/d.go:303-322: for each path entry, split the path,
discard the leading root segment, walk/create intermediates and assign the
leaf text. -/
def expanded (temp : List (String × String)) (out : Doc) : Option Doc :=
  temp.foldl
    (fun acc kv =>
      acc.bind (fun o =>
        let a := splitPath kv.1
        mvAssign o ((a.drop 1).dropLast) (a.getLastD "") kv.2))
    (some out)

/-- `UnmarshalXML` from src/d.go:269-301 driven by `xml.Unmarshal`: the
decoder hands over the root start element (its name seeding the stack), the
loop consumes the remaining tokens, and `expanded` rebuilds the nested map.
A stream with no root element is a decoder error, embedded as `none`. -/
def unmarshalXML (toks : List Token) : Option Doc :=
  match toks with
  | .start n :: rest => expanded (runTokens ⟨[n], [], "", false⟩ rest).temp []
  | _ => none

/-- `UnmarshalJSON` from src/d.go:218-226: a nil payload clears the map to
nil (embedded as `[]`); a present payload is delegated to the external JSON
decoder, passed here as the parameter `decode`. -/
def unmarshalJSON (decode : String → Doc) : Option String → Doc
  | none => []
  | some b => decode b

/-! ## Proof-side specification helpers

These are not translations of repository code; they are used to state and
prove properties of the functions above. -/

/-- The path entries `marshallXML` gives rise to, with paths as segment
lists relative to the enclosing element: one entry per leaf, in document
order, carrying the leaf's `fmtString` text. -/
def linRel (sep : String) : Doc → List (List String × String)
  | [] => []
  | (k, v) :: rest =>
    (match v with
     | .obj m2 => (linRel sep m2).map (fun p => (k :: p.1, p.2))
     | v2 => [([k], fmtString v2 sep)]) ++ linRel sep rest

/-- The same entries with paths joined under a stack prefix `tr`, i.e. the
path-entry map `UnmarshalXML`'s loop accumulates. -/
def lin (sep : String) (tr : List String) (m : Doc) : List (String × String) :=
  (linRel sep m).map (fun p => (goJoin xmlLevelSep (tr ++ p.1), p.2))

/-- The fold `expanded` performs, restated over segment-list paths (the form
the paths take after `splitPath` undoes `goJoin`); used to state and prove
the round-trip property. -/
def expandRel (out : Doc) (es : List (List String × String)) : Option Doc :=
  es.foldl
    (fun acc ps => acc.bind (fun o => mvAssign o ps.1.dropLast (ps.1.getLastD "") ps.2))
    (some out)

/-- A key safe for XML path joining: it does not contain the level
separator `'>'`. -/
def goodKey (k : String) : Bool :=
  k.data.all (fun c => !(c == '>'))

/-- Duplicate-freedom of an association list's keys (the invariant a Go map
guarantees). -/
def nodupKeys : List (String × α) → Bool
  | [] => true
  | (k, _) :: rest => !(hasKey rest k) && nodupKeys rest

mutual

/-- The document class for which the XML round trip is exact: every leaf is a
non-empty string, every nested map is non-empty with duplicate-free keys, and
no key contains the XML level separator. -/
def goodVal : Value → Bool
  | .str s => !(s == "")
  | .obj m => !(m.isEmpty) && nodupKeys m && goodEntries m
  | _ => false

/-- Entry-wise goodness: keys are separator-free and every value is good. -/
def goodEntries : Doc → Bool
  | [] => true
  | (k, v) :: rest => goodKey k && goodVal v && goodEntries rest

end


/-- The order `sortStrings` sorts by, as a relation on strings. -/
def leStr (a b : String) : Prop := charListLe a.data b.data = true

/-- Membership of an error in the spec's two-kind taxonomy (`ErrNotFound` or
an `ErrOutOfRange` wrap); written from the spec's words for comparison with
the errors the code actually returns. -/
def isTwoKinds : Err → Bool
  | .notFound => true
  | .outOfRange _ _ => true
  | .parseFail _ => false



/-! ## Supporting lemmas -/

theorem fmtStrings_eq_map (l : List Value) (sep : String) :
    fmtStrings l sep = l.map (fun v => fmtString v sep) := by
  induction l with
  | nil => rfl
  | cons v vs ih => simp [fmtStrings, ih]

theorem lookupWalk_ok_or_notFound (ks : List String) :
    ∀ v : Value, (∃ u, lookupWalk v ks = .ok u) ∨ lookupWalk v ks = .error .notFound := by
  induction ks with
  | nil => intro v; exact .inl ⟨v, rfl⟩
  | cons k ks ih =>
    intro v
    cases v with
    | obj m =>
      cases h : assocGet m k with
      | none => exact .inr (by simp [lookupWalk, h])
      | some v' =>
        rcases ih v' with h' | h'
        · exact .inl (by simpa [lookupWalk, h] using h')
        · exact .inr (by simpa [lookupWalk, h] using h')
    | null => exact .inr rfl
    | bool b => exact .inr rfl
    | float f => exact .inr rfl
    | num s => exact .inr rfl
    | str s => exact .inr rfl
    | arr l => exact .inr rfl


theorem charListLe_refl : ∀ a : List Char, charListLe a a = true := by
  intro a
  induction a with
  | nil => rfl
  | cons c cs ih => simp [charListLe, ih]

theorem charListLe_total : ∀ a b : List Char, charListLe a b = true ∨ charListLe b a = true := by
  intro a
  induction a with
  | nil => intro b; exact .inl rfl
  | cons c cs ih =>
    intro b
    cases b with
    | nil => exact .inr rfl
    | cons d ds =>
      by_cases hcd : c = d
      · subst hcd
        rcases ih ds with h | h
        · exact .inl (by simp [charListLe, h])
        · exact .inr (by simp [charListLe, h])
      · rcases lt_or_gt_of_ne hcd with h | h
        · exact .inl (by simp [charListLe, hcd, h])
        · exact .inr (by simp [charListLe, Ne.symm hcd, not_lt_of_gt h, h])

theorem charListLe_trans : ∀ a b c : List Char,
    charListLe a b = true → charListLe b c = true → charListLe a c = true := by
  intro a
  induction a with
  | nil => intro b c _ _; rfl
  | cons x xs ih =>
    intro b c hab hbc
    cases b with
    | nil => simp [charListLe] at hab
    | cons y ys =>
      cases c with
      | nil => simp [charListLe] at hbc
      | cons z zs =>
        by_cases hxy : x = y <;> by_cases hyz : y = z
        · subst hxy; subst hyz
          simp only [charListLe, if_pos rfl] at hab hbc ⊢
          exact ih ys zs hab hbc
        · subst hxy
          simp only [charListLe, if_neg hyz] at hbc
          simp only [charListLe, if_neg hyz]
          exact hbc
        · subst hyz
          simp only [charListLe, if_neg hxy] at hab
          simp only [charListLe, if_neg hxy]
          exact hab
        · simp only [charListLe, if_neg hxy] at hab
          simp only [charListLe, if_neg hyz] at hbc
          have hxz : x < z := lt_trans (of_decide_eq_true hab) (of_decide_eq_true hbc)
          have hne : x ≠ z := ne_of_lt hxz
          simp [charListLe, hne, hxz]

theorem charListLe_antisymm : ∀ a b : List Char,
    charListLe a b = true → charListLe b a = true → a = b := by
  intro a
  induction a with
  | nil =>
    intro b _ hba
    cases b with
    | nil => rfl
    | cons d ds => simp [charListLe] at hba
  | cons c cs ih =>
    intro b hab hba
    cases b with
    | nil => simp [charListLe] at hab
    | cons d ds =>
      by_cases hcd : c = d
      · subst hcd
        simp only [charListLe, if_pos rfl] at hab hba
        rw [ih ds hab hba]
      · simp only [charListLe, if_neg hcd] at hab
        simp only [charListLe, if_neg (Ne.symm hcd)] at hba
        exact absurd (of_decide_eq_true hab) (not_lt_of_gt (of_decide_eq_true hba))

theorem charListLe_append : ∀ p a b : List Char,
    charListLe (p ++ a) (p ++ b) = charListLe a b := by
  intro p
  induction p with
  | nil => intro a b; rfl
  | cons c cs ih => intro a b; simp [charListLe, ih]

theorem lcpLen_le_left : ∀ a b : List Char, lcpLen a b ≤ a.length := by
  intro a
  induction a with
  | nil => intro b; cases b <;> simp [lcpLen]
  | cons c cs ih =>
    intro b
    cases b with
    | nil => simp [lcpLen]
    | cons d ds =>
      by_cases h : c = d
      · simpa [lcpLen, h] using ih ds
      · simp [lcpLen, h]

theorem lcpLen_le_right : ∀ a b : List Char, lcpLen a b ≤ b.length := by
  intro a
  induction a with
  | nil => intro b; cases b <;> simp [lcpLen]
  | cons c cs ih =>
    intro b
    cases b with
    | nil => simp [lcpLen]
    | cons d ds =>
      by_cases h : c = d
      · simpa [lcpLen, h] using ih ds
      · simp [lcpLen, h]

theorem lcpLen_drop : ∀ a b : List Char,
    lcpLen (a.drop (lcpLen a b)) (b.drop (lcpLen a b)) = 0 := by
  intro a
  induction a with
  | nil => intro b; cases b <;> simp [lcpLen]
  | cons c cs ih =>
    intro b
    cases b with
    | nil => simp [lcpLen]
    | cons d ds =>
      by_cases h : c = d
      · simpa [lcpLen, h] using ih ds
      · simp [lcpLen, h]

theorem lcp_pre_middle : ∀ a b y : List Char,
    charListLe a y = true → charListLe y b = true →
    y.take (lcpLen a b) = a.take (lcpLen a b) := by
  intro a
  induction a with
  | nil => intro b y _ _; cases b <;> simp [lcpLen]
  | cons c cs ih =>
    intro b y hay hyb
    cases b with
    | nil => simp [lcpLen]
    | cons d ds =>
      by_cases hcd : c = d
      · subst hcd
        cases y with
        | nil => simp [charListLe] at hay
        | cons e es =>
          by_cases hce : c = e
          · subst hce
            simp only [charListLe, if_pos rfl] at hay hyb
            simp [lcpLen, List.take_cons, ih ds es hay hyb]
          · simp only [charListLe, if_neg hce, if_neg (Ne.symm hce)] at hay hyb
            exact absurd (of_decide_eq_true hay) (not_lt_of_gt (of_decide_eq_true hyb))
      · simp [lcpLen, hcd]

theorem hasKey_eq_false_iff (l : List (String × α)) (k : String) :
    hasKey l k = false ↔ ∀ kv ∈ l, kv.1 ≠ k := by
  induction l with
  | nil => simp [hasKey]
  | cons e rest ih =>
    obtain ⟨k', v'⟩ := e
    simp [hasKey, ih]

theorem hasKey_append (a b : List (String × α)) (k : String) :
    hasKey (a ++ b) k = (hasKey a k || hasKey b k) := by
  induction a with
  | nil => simp [hasKey]
  | cons e rest ih =>
    obtain ⟨k', v'⟩ := e
    simp [hasKey, ih, Bool.or_assoc]

theorem nodupKeys_iff (l : List (String × α)) :
    nodupKeys l = true ↔ (l.map Prod.fst).Nodup := by
  induction l with
  | nil => simp [nodupKeys]
  | cons e rest ih =>
    obtain ⟨k, v⟩ := e
    simp only [nodupKeys, Bool.and_eq_true, Bool.not_eq_true', ih, List.map_cons,
      List.nodup_cons, hasKey_eq_false_iff]
    constructor
    · rintro ⟨h1, h2⟩
      refine ⟨fun hmem => ?_, h2⟩
      obtain ⟨kv, hkv, hfst⟩ := List.mem_map.mp hmem
      exact h1 kv hkv hfst
    · rintro ⟨h1, h2⟩
      exact ⟨fun kv hkv hfst => h1 (List.mem_map.mpr ⟨kv, hkv, hfst⟩), h2⟩

theorem assocSet_fresh (m : List (String × α)) (k : String) (v : α)
    (h : hasKey m k = false) : assocSet m k v = m ++ [(k, v)] := by
  simp [assocSet, h]

theorem foldl_assocSet_append (l : List (String × α)) :
    ∀ out : List (String × α), nodupKeys l = true →
    (∀ kv ∈ l, hasKey out kv.1 = false) →
    l.foldl (fun o kv => assocSet o kv.1 kv.2) out = out ++ l := by
  induction l with
  | nil => intro out _ _; simp
  | cons e rest ih =>
    intro out hnd hfresh
    obtain ⟨k, v⟩ := e
    simp only [nodupKeys, Bool.and_eq_true, Bool.not_eq_true'] at hnd
    have hk : hasKey out k = false := hfresh (k, v) (List.mem_cons_self _ _)
    have step : assocSet out k v = out ++ [(k, v)] := assocSet_fresh out k v hk
    simp only [List.foldl_cons, step]
    rw [ih (out ++ [(k, v)]) hnd.2]
    · simp
    · intro kv hkv
      rw [hasKey_append]
      have h1 : hasKey out kv.1 = false := hfresh kv (List.mem_cons_of_mem _ hkv)
      have h2 : hasKey [(k, v)] kv.1 = false := by
        have hne : kv.1 ≠ k := (hasKey_eq_false_iff rest k).mp hnd.1 kv hkv
        have hbeq : (k == kv.1) = false := beq_eq_false_iff_ne.mpr (Ne.symm hne)
        simp [hasKey, hbeq]
      simp [h1, h2]

theorem insertSorted_perm (s : String) : ∀ l : List String, (insertSorted s l).Perm (s :: l) := by
  intro l
  induction l with
  | nil => simp [insertSorted]
  | cons t ts ih =>
    by_cases h : charListLe s.data t.data = true
    · simp [insertSorted, h]
    · simp only [insertSorted, if_neg h]
      exact (ih.cons t).trans (List.Perm.swap s t ts)

theorem sortStrings_perm : ∀ l : List String, (sortStrings l).Perm l := by
  intro l
  induction l with
  | nil => simp [sortStrings]
  | cons s ss ih =>
    exact (insertSorted_perm s (sortStrings ss)).trans (ih.cons s)

theorem insertSorted_sorted (s : String) :
    ∀ l : List String, l.Sorted leStr → (insertSorted s l).Sorted leStr := by
  intro l
  induction l with
  | nil => intro _; simp [insertSorted, List.Sorted]
  | cons t ts ih =>
    intro hs
    rw [List.sorted_cons] at hs
    by_cases h : charListLe s.data t.data = true
    · simp only [insertSorted, if_pos h]
      rw [List.sorted_cons]
      refine ⟨fun b hb => ?_, List.sorted_cons.mpr hs⟩
      rcases List.mem_cons.mp hb with rfl | hb2
      · exact h
      · exact charListLe_trans _ _ _ h (hs.1 b hb2)
    · simp only [insertSorted, if_neg h]
      rw [List.sorted_cons]
      refine ⟨fun b hb => ?_, ih hs.2⟩
      have hts : charListLe t.data s.data = true := by
        rcases charListLe_total s.data t.data with h' | h'
        · exact absurd h' h
        · exact h'
      have hmem : b ∈ s :: ts := (insertSorted_perm s ts).mem_iff.mp hb
      rcases List.mem_cons.mp hmem with rfl | hb2
      · exact hts
      · exact hs.1 b hb2

theorem sortStrings_sorted : ∀ l : List String, (sortStrings l).Sorted leStr := by
  intro l
  induction l with
  | nil => simp [sortStrings, List.Sorted]
  | cons s ss ih => exact insertSorted_sorted s (sortStrings ss) ih

theorem leStr_antisymm {a b : String} (h1 : leStr a b) (h2 : leStr b a) : a = b := by
  cases a with
  | mk da =>
    cases b with
    | mk db =>
      have : da = db := charListLe_antisymm da db h1 h2
      rw [this]

theorem sorted_head_le {x0 : String} {xs : List String}
    (h : (x0 :: xs).Sorted leStr) : ∀ y ∈ x0 :: xs, leStr x0 y := by
  intro y hy
  rcases List.mem_cons.mp hy with rfl | hy2
  · exact charListLe_refl _
  · exact (List.sorted_cons.mp h).1 y hy2

theorem getLastD_mem_cons : ∀ (l : List α) (a d : α), (a :: l).getLastD d ∈ a :: l := by
  intro l
  induction l with
  | nil => intro a d; simp [List.getLastD]
  | cons b bs ih =>
    intro a d
    rw [List.getLastD_cons]
    exact List.mem_cons_of_mem a (ih b a)

theorem getLastD_cons_irrel (b : α) (l : List α) (d1 d2 : α) :
    (b :: l).getLastD d1 = (b :: l).getLastD d2 := by
  rw [List.getLastD_cons, List.getLastD_cons]

theorem sorted_le_getLastD : ∀ (l : List String), l.Sorted leStr →
    ∀ y ∈ l, leStr y (l.getLastD "") := by
  intro l
  induction l with
  | nil => intro _ y hy; cases hy
  | cons a as ih =>
    intro hs y hy
    cases as with
    | nil =>
      rcases List.mem_cons.mp hy with rfl | hy2
      · exact charListLe_refl _
      · cases hy2
    | cons b bs =>
      rw [List.sorted_cons] at hs
      have hlast : (a :: b :: bs).getLastD "" = (b :: bs).getLastD "" := by
        rw [List.getLastD_cons]
        exact getLastD_cons_irrel b bs a ""
      rcases List.mem_cons.mp hy with rfl | hy2
      · rw [hlast]
        exact hs.1 _ (getLastD_mem_cons bs b "")
      · rw [hlast]
        exact ih hs.2 y hy2


theorem take_lcpLen_eq : ∀ a b : List Char, a.take (lcpLen a b) = b.take (lcpLen a b) := by
  intro a
  induction a with
  | nil => intro b; cases b <;> simp [lcpLen]
  | cons c cs ih =>
    intro b
    cases b with
    | nil => simp [lcpLen]
    | cons d ds =>
      by_cases h : c = d
      · subst h; simp [lcpLen, List.take_cons, ih ds]
      · simp [lcpLen, h]

theorem hasPref_iff : ∀ p l : List Char, hasPref p l = true ↔ ∃ t, p ++ t = l := by
  intro p
  induction p with
  | nil => intro l; simp [hasPref]
  | cons c cs ih =>
    intro l
    cases l with
    | nil => simp [hasPref]
    | cons d ds =>
      simp only [hasPref, Bool.and_eq_true, beq_iff_eq, ih ds]
      constructor
      · rintro ⟨rfl, t, rfl⟩
        exact ⟨t, rfl⟩
      · rintro ⟨t, ht⟩
        have h1 : c = d := by injection ht
        have h2 : cs ++ t = ds := by injection ht
        exact ⟨h1, t, h2⟩

theorem trimPref_of_pre {a p : String} {t : List Char} (h : p.data ++ t = a.data) :
    (trimPref a p).data = t := by
  have hp : hasPref p.data a.data = true := (hasPref_iff p.data a.data).mpr ⟨t, h⟩
  simp only [trimPref, if_pos hp]
  rw [← h, List.drop_left]

theorem commonPrefix_eval (m : FlatMap) (h : ¬ (m.length ≤ 1)) :
    commonPrefix m =
      if lcpLen ((sortStrings (m.map Prod.fst)).headD "").data
            ((sortStrings (m.map Prod.fst)).getLastD "").data == 0
          || !(((sortStrings (m.map Prod.fst)).headD "").data.getD
                (lcpLen ((sortStrings (m.map Prod.fst)).headD "").data
                  ((sortStrings (m.map Prod.fst)).getLastD "").data - 1) ' ' == keySep)
      then ""
      else String.mk (((sortStrings (m.map Prod.fst)).headD "").data.take
            (lcpLen ((sortStrings (m.map Prod.fst)).headD "").data
              ((sortStrings (m.map Prod.fst)).getLastD "").data)) := by
  simp only [ commonPrefix, if_neg h]

theorem commonPrefix_length_gt (m : FlatMap) (hne : commonPrefix m ≠ "") : 1 < m.length := by
  by_contra hle
  exact hne (by simp [ commonPrefix, Nat.le_of_not_lt hle])

theorem commonPrefix_shape (m : FlatMap) (hne : commonPrefix m ≠ "") :
    0 < lcpLen ((sortStrings (m.map Prod.fst)).headD "").data
        ((sortStrings (m.map Prod.fst)).getLastD "").data ∧
    ( commonPrefix m).data
      = ((sortStrings (m.map Prod.fst)).headD "").data.take
          (lcpLen ((sortStrings (m.map Prod.fst)).headD "").data
            ((sortStrings (m.map Prod.fst)).getLastD "").data) ∧
    ((sortStrings (m.map Prod.fst)).headD "").data.getD
        (lcpLen ((sortStrings (m.map Prod.fst)).headD "").data
          ((sortStrings (m.map Prod.fst)).getLastD "").data - 1) ' ' = keySep := by
  have hlen := commonPrefix_length_gt m hne
  set r1 := ((sortStrings (m.map Prod.fst)).headD "").data with hr1
  set r2 := ((sortStrings (m.map Prod.fst)).getLastD "").data with hr2
  set i := lcpLen r1 r2 with hi
  have hcp : commonPrefix m
      = if i == 0 || !(r1.getD (i - 1) ' ' == keySep) then "" else String.mk (r1.take i) := by
    simp only [ commonPrefix, if_neg (Nat.not_le.mpr hlen)]
  by_cases hc : (i == 0 || !(r1.getD (i - 1) ' ' == keySep)) = true
  · rw [hcp, if_pos hc] at hne
    exact absurd rfl hne
  · rw [hcp, if_neg hc]
    simp only [Bool.or_eq_true, beq_iff_eq, Bool.not_eq_true', not_or, Bool.not_eq_false,
      beq_iff_eq] at hc
    exact ⟨Nat.pos_of_ne_zero hc.1, rfl, hc.2⟩

theorem mem_keys_of_mem {m : FlatMap} {kv : String × Value} (h : kv ∈ m) :
    kv.1 ∈ m.map Prod.fst :=
  List.mem_map.mpr ⟨kv, h, rfl⟩

theorem commonPrefix_pre (m : FlatMap) (hne : commonPrefix m ≠ "") :
    ∀ k ∈ m.map Prod.fst, ∃ t, ( commonPrefix m).data ++ t = k.data := by
  obtain ⟨hpos, hdata, _⟩ := commonPrefix_shape m hne
  have hlen := commonPrefix_length_gt m hne
  intro k hk
  have hperm := sortStrings_perm (m.map Prod.fst)
  have hsorted := sortStrings_sorted (m.map Prod.fst)
  have hxne : sortStrings (m.map Prod.fst) ≠ [] := by
    intro hnil
    have hl := hperm.length_eq
    rw [hnil, List.length_map] at hl
    simp only [List.length_nil] at hl
    omega
  obtain ⟨x0, xs, hx⟩ := List.exists_cons_of_ne_nil hxne
  have hkx : k ∈ sortStrings (m.map Prod.fst) := hperm.mem_iff.mpr hk
  have hle1 : leStr x0 k := by
    rw [hx] at hsorted hkx
    exact sorted_head_le hsorted k hkx
  have hle2 : leStr k ((sortStrings (m.map Prod.fst)).getLastD "") := by
    exact sorted_le_getLastD _ hsorted k hkx
  have hhead : (sortStrings (m.map Prod.fst)).headD "" = x0 := by rw [hx]; rfl
  have htake := lcp_pre_middle x0.data ((sortStrings (m.map Prod.fst)).getLastD "").data
    k.data hle1 hle2
  rw [hhead] at hdata
  refine ⟨k.data.drop (lcpLen x0.data ((sortStrings (m.map Prod.fst)).getLastD "").data), ?_⟩
  rw [hdata, ← htake, List.take_append_drop]

theorem mapTrim_nodup (m : FlatMap) (hnd : nodupKeys m = true) (hne : commonPrefix m ≠ "") :
    ((m.map (fun kv => (trimPref kv.1 ( commonPrefix m), kv.2))).map Prod.fst).Nodup := by
  have hkeys : (m.map (fun kv => (trimPref kv.1 ( commonPrefix m), kv.2))).map Prod.fst
      = (m.map Prod.fst).map (fun k => trimPref k ( commonPrefix m)) := by
    simp [List.map_map]
  rw [hkeys]
  have hpre := commonPrefix_pre m hne
  refine List.Nodup.map_on ?_ ((nodupKeys_iff m).mp hnd)
  intro a ha b hb hab
  obtain ⟨ta, hta⟩ := hpre a ha
  obtain ⟨tb, htb⟩ := hpre b hb
  have h1 : (trimPref a ( commonPrefix m)).data = ta := trimPref_of_pre hta
  have h2 : (trimPref b ( commonPrefix m)).data = tb := trimPref_of_pre htb
  have : ta = tb := by rw [← h1, ← h2, hab]
  have hdata : a.data = b.data := by rw [← hta, ← htb, this]
  cases a
  cases b
  exact congrArg String.mk (by simpa using hdata)

theorem simplify_eq_mapTrim (m : FlatMap) (hnd : nodupKeys m = true)
    (hne : commonPrefix m ≠ "") :
    simplify m = m.map (fun kv => (trimPref kv.1 ( commonPrefix m), kv.2)) := by
  have hbeq : ( commonPrefix m == "") = false := beq_eq_false_iff_ne.mpr hne
  simp only [simplify, hbeq, Bool.false_eq_true, if_false]
  have hfold : m.foldl (fun out kv => assocSet out (trimPref kv.1 ( commonPrefix m)) kv.2) []
      = (m.map (fun kv => (trimPref kv.1 ( commonPrefix m), kv.2))).foldl
          (fun o kv => assocSet o kv.1 kv.2) [] := by
    rw [List.foldl_map]
  rw [hfold, foldl_assocSet_append]
  · simp
  · rw [nodupKeys_iff]
    exact mapTrim_nodup m hnd hne
  · intro kv _
    rfl

theorem getLastD_map (f : α → β) : ∀ (l : List α) (b : α) (d : β) (d' : α),
    ((b :: l).map f).getLastD d = f ((b :: l).getLastD d') := by
  intro l
  induction l with
  | nil => intro b d d'; rfl
  | cons c cs ih =>
    intro b d d'
    have h1 : ((b :: c :: cs).map f).getLastD d = ((c :: cs).map f).getLastD (f b) := by
      simp only [List.map_cons, List.getLastD_cons]
    have h2 : (b :: c :: cs).getLastD d' = (c :: cs).getLastD b := by
      simp only [List.getLastD_cons]
    rw [h1, h2, ih c (f b) b]

theorem simplify_keys_sorted_image (m : FlatMap) (hnd : nodupKeys m = true)
    (hne : commonPrefix m ≠ "") :
    sortStrings ((simplify m).map Prod.fst)
      = (sortStrings (m.map Prod.fst)).map (fun k => trimPref k ( commonPrefix m)) := by
  haveI : IsAntisymm String leStr := ⟨fun a b h1 h2 => leStr_antisymm h1 h2⟩
  have hpre := commonPrefix_pre m hne
  have hkeys : (simplify m).map Prod.fst
      = (m.map Prod.fst).map (fun k => trimPref k ( commonPrefix m)) := by
    rw [simplify_eq_mapTrim m hnd hne]
    simp [List.map_map]
  have hperm : (sortStrings ((simplify m).map Prod.fst)).Perm
      ((sortStrings (m.map Prod.fst)).map (fun k => trimPref k ( commonPrefix m))) := by
    refine (sortStrings_perm _).trans ?_
    rw [hkeys]
    exact ((sortStrings_perm (m.map Prod.fst)).map _).symm
  refine List.eq_of_perm_of_sorted hperm (sortStrings_sorted _) ?_
  show List.Pairwise leStr
    ((sortStrings (m.map Prod.fst)).map fun k => trimPref k ( commonPrefix m))
  refine List.pairwise_map.mpr ?_
  refine List.Pairwise.imp_of_mem ?_ (sortStrings_sorted (m.map Prod.fst))
  intro a b ha hb hab
  have hamem : a ∈ m.map Prod.fst := (sortStrings_perm _).mem_iff.mp ha
  have hbmem : b ∈ m.map Prod.fst := (sortStrings_perm _).mem_iff.mp hb
  obtain ⟨ta, hta⟩ := hpre a hamem
  obtain ⟨tb, htb⟩ := hpre b hbmem
  have h1 : (trimPref a ( commonPrefix m)).data = ta := trimPref_of_pre hta
  have h2 : (trimPref b ( commonPrefix m)).data = tb := trimPref_of_pre htb
  show charListLe (trimPref a ( commonPrefix m)).data (trimPref b ( commonPrefix m)).data = true
  rw [h1, h2]
  have : charListLe (( commonPrefix m).data ++ ta) (( commonPrefix m).data ++ tb) = true := by
    rw [hta, htb]
    exact hab
  rwa [charListLe_append] at this

theorem simplify_of_empty (l : FlatMap) (h : commonPrefix l = "") : simplify l = l := by
  have hbeq : ( commonPrefix l == "") = true := beq_iff_eq.mpr h
  simp [simplify, hbeq]

theorem simplify_length (m : FlatMap) (hnd : nodupKeys m = true) :
    (simplify m).length = m.length := by
  by_cases hne : commonPrefix m = ""
  · rw [simplify_of_empty m hne]
  · rw [simplify_eq_mapTrim m hnd hne]
    simp

theorem commonPrefix_simplify (m : FlatMap) (hnd : nodupKeys m = true)
    (hne : commonPrefix m ≠ "") : commonPrefix (simplify m) = "" := by
  obtain ⟨hpos, hdata, _⟩ := commonPrefix_shape m hne
  have hlen := commonPrefix_length_gt m hne
  have hlen2 : ¬((simplify m).length ≤ 1) := by
    rw [simplify_length m hnd]
    omega
  have hsx := simplify_keys_sorted_image m hnd hne
  have hxne : sortStrings (m.map Prod.fst) ≠ [] := by
    intro hnil
    have := (sortStrings_perm (m.map Prod.fst)).length_eq
    rw [hnil] at this
    simp at this
    omega
  obtain ⟨x0, xs, hx⟩ := List.exists_cons_of_ne_nil hxne
  have hhead : (sortStrings (m.map Prod.fst)).headD "" = x0 := by rw [hx]; rfl
  set xl := (sortStrings (m.map Prod.fst)).getLastD "" with hxl
  set i := lcpLen x0.data xl.data with hi
  rw [hhead] at hdata
  have hx0mem : x0 ∈ m.map Prod.fst := (sortStrings_perm _).mem_iff.mp (by rw [hx]; exact .head _)
  have hxlmem : xl ∈ m.map Prod.fst := by
    refine (sortStrings_perm _).mem_iff.mp ?_
    rw [hxl, hx]
    exact getLastD_mem_cons xs x0 ""
  have hplen : ( commonPrefix m).data.length = i := by
    rw [hdata, List.length_take]
    exact Nat.min_eq_left (lcpLen_le_left _ _)
  have htr1 : (trimPref x0 ( commonPrefix m)).data = x0.data.drop i := by
    refine trimPref_of_pre ?_
    rw [hdata]
    have := take_lcpLen_eq x0.data xl.data
    rw [← hi] at this ⊢
    exact List.take_append_drop i x0.data
  have htr2 : (trimPref xl ( commonPrefix m)).data = xl.data.drop i := by
    refine trimPref_of_pre ?_
    rw [hdata]
    have heq : x0.data.take i = xl.data.take i := by
      rw [hi]
      exact take_lcpLen_eq x0.data xl.data
    rw [heq]
    exact List.take_append_drop i xl.data
  have hhead2 : (sortStrings ((simplify m).map Prod.fst)).headD ""
      = trimPref x0 ( commonPrefix m) := by
    rw [hsx, hx]
    rfl
  have hlast2 : (sortStrings ((simplify m).map Prod.fst)).getLastD ""
      = trimPref xl ( commonPrefix m) := by
    rw [hsx, hx, hxl, hx]
    exact getLastD_map _ xs x0 "" ""
  have hlcp0 : lcpLen (x0.data.drop i) (xl.data.drop i) = 0 := by
    rw [hi]
    exact lcpLen_drop x0.data xl.data
  rw [ commonPrefix_eval (simplify m) hlen2, hhead2, hlast2, htr1, htr2, hlcp0]
  simp

/-- C4: `simplify` is idempotent on its own output: on any flat map (an
association list with duplicate-free keys, as a Go map guarantees),
`simplify (simplify m) = simplify m`. -/
theorem c4_simplify_idempotent (m : FlatMap) (hnd : nodupKeys m = true) :
    simplify (simplify m) = simplify m := by
  by_cases hne : commonPrefix m = ""
  · rw [simplify_of_empty m hne, simplify_of_empty m hne]
  · exact simplify_of_empty (simplify m) (commonPrefix_simplify m hnd hne)

/-- Witness for C4 at a concrete input. -/
theorem c4_simplify_idempotent_witness :
    nodupKeys [("geek_name", Value.str "v"), ("geek_age", Value.bool true)] = true ∧
    simplify (simplify [("geek_name", Value.str "v"), ("geek_age", Value.bool true)])
      = simplify [("geek_name", Value.str "v"), ("geek_age", Value.bool true)] :=
  ⟨by decide, c4_simplify_idempotent _ (by decide)⟩

/-- C10: `commonPrefix` returns the empty string or a string ending in the
key separator `'_'` that is a prefix of every key of the map; consequently
the stripping `simplify` performs is injective on the keys (the stripped key
list is duplicate-free) and `simplify` preserves the number of entries. -/
theorem c10_commonPrefix_boundary (m : FlatMap) (hnd : nodupKeys m = true) :
    ( commonPrefix m = "" ∨
      (( commonPrefix m).data.getLast? = some keySep ∧
        ∀ kv ∈ m, ∃ t, ( commonPrefix m).data ++ t = kv.1.data)) ∧
    (simplify m).length = m.length ∧
    ((simplify m).map Prod.fst).Nodup := by
  refine ⟨?_, simplify_length m hnd, ?_⟩
  · by_cases hne : commonPrefix m = ""
    · exact .inl hne
    · refine .inr ⟨?_, fun kv hkv => commonPrefix_pre m hne kv.1 (mem_keys_of_mem hkv)⟩
      obtain ⟨hpos, hdata, hsep⟩ := commonPrefix_shape m hne
      set r1 := ((sortStrings (m.map Prod.fst)).headD "").data with hr1
      set r2 := ((sortStrings (m.map Prod.fst)).getLastD "").data with hr2
      set i := lcpLen r1 r2 with hi
      have hile : i ≤ r1.length := lcpLen_le_left r1 r2
      have him1 : i - 1 < r1.length := by omega
      rw [hdata, List.getLast?_eq_getElem?, List.length_take]
      have hmin : min i r1.length = i := Nat.min_eq_left hile
      rw [hmin]
      have htake : (r1.take i)[i - 1]? = r1[i - 1]? := by
        rw [List.getElem?_take]
        exact if_pos (by omega)
      rw [htake, List.getElem?_eq_getElem him1]
      have : r1.getD (i - 1) ' ' = r1[i - 1] := by
        rw [List.getD_eq_getElem?_getD, List.getElem?_eq_getElem him1]
        rfl
      rw [← this, hsep]
  · by_cases hne : commonPrefix m = ""
    · rw [simplify_of_empty m hne]
      exact (nodupKeys_iff m).mp hnd
    · rw [simplify_eq_mapTrim m hnd hne]
      exact mapTrim_nodup m hnd hne

/-- Witness for C10 at a concrete input. -/
theorem c10_commonPrefix_boundary_witness :
    nodupKeys [("app_x", Value.num "1"), ("app_y", Value.null)] = true ∧
    (( commonPrefix [("app_x", Value.num "1"), ("app_y", Value.null)] = "" ∨
      (( commonPrefix [("app_x", Value.num "1"), ("app_y", Value.null)]).data.getLast?
          = some keySep ∧
        ∀ kv ∈ [("app_x", Value.num "1"), ("app_y", Value.null)],
          ∃ t, ( commonPrefix [("app_x", Value.num "1"), ("app_y", Value.null)]).data ++ t
            = kv.1.data)) ∧
    (simplify [("app_x", Value.num "1"), ("app_y", Value.null)]).length
      = [("app_x", Value.num "1"), ("app_y", Value.null)].length ∧
    ((simplify [("app_x", Value.num "1"), ("app_y", Value.null)]).map Prod.fst).Nodup) :=
  ⟨by decide, c10_commonPrefix_boundary _ (by decide)⟩


theorem Lookup_error_eq (d : Doc) (keys : List String) (e : Err)
    (h : Lookup d keys = .error e) : e = .notFound := by
  cases keys with
  | nil =>
    simp only [Lookup, List.isEmpty_nil, if_pos rfl] at h
    injection h with h
    exact h.symm
  | cons k ks =>
    simp only [Lookup, List.isEmpty_cons, Bool.false_eq_true, if_false] at h
    rcases lookupWalk_ok_or_notFound (k :: ks) (.obj d) with ⟨u, hu⟩ | hnf
    · rw [hu] at h
      cases h
    · rw [hnf] at h
      injection h with h
      exact h.symm

theorem bind_error_cases {α β : Type} (r : Except Err α) (f : α → Except Err β) (e : Err)
    (h : r.bind f = .error e) : r = .error e ∨ ∃ a, r = .ok a ∧ f a = .error e := by
  cases r with
  | error e2 =>
    left
    have : (Except.error e2 : Except Err α).bind f = .error e2 := rfl
    rw [this] at h
    injection h with h
    rw [h]
  | ok a => exact .inr ⟨a, rfl, h⟩

theorem goParseBool_error (s : String) (e : Err) (h : goParseBool s = .error e) :
    e = .parseFail ⟨"ParseBool", s, .errSyn⟩ := by
  unfold goParseBool at h
  split_ifs at h
  injection h with h
  exact h.symm

theorem toBool_error (v : Value) (e : Err) (h : toBool v = .error e) :
    (∃ x y, e = .outOfRange x y) ∨
      (∃ s, v = .str s ∧ goParseBool s = .error e ∧ ∃ se, e = .parseFail se) := by
  cases v with
  | str s =>
    refine .inr ⟨s, rfl, h, ?_⟩
    have := goParseBool_error s e h
    exact ⟨_, this⟩
  | bool b => cases h
  | null => exact .inl ⟨_, _, (by injection h with h; exact h.symm)⟩
  | float f => exact .inl ⟨_, _, (by injection h with h; exact h.symm)⟩
  | num s => exact .inl ⟨_, _, (by injection h with h; exact h.symm)⟩
  | arr l => exact .inl ⟨_, _, (by injection h with h; exact h.symm)⟩
  | obj m => exact .inl ⟨_, _, (by injection h with h; exact h.symm)⟩

theorem mapError_parseFail_error {α : Type} (r : Except StrconvError α) (e : Err)
    (h : r.mapError Err.parseFail = .error e) : ∃ se, r = .error se ∧ e = .parseFail se := by
  cases r with
  | error se =>
    refine ⟨se, rfl, ?_⟩
    have : (Except.error se : Except StrconvError α).mapError Err.parseFail
        = .error (.parseFail se) := rfl
    rw [this] at h
    injection h with h
    exact h.symm
  | ok a => cases h

theorem toFloat64_error (pf : StrParse FloatLit) (v : Value) (e : Err)
    (h : toFloat64 pf v = .error e) :
    (∃ x y, e = .outOfRange x y) ∨
      (∃ s se, (v = .str s ∨ v = .num s) ∧ pf s = .error se ∧ e = .parseFail se) := by
  cases v with
  | str s =>
    obtain ⟨se, h1, h2⟩ := mapError_parseFail_error (pf s) e h
    exact .inr ⟨s, se, .inl rfl, h1, h2⟩
  | num s =>
    obtain ⟨se, h1, h2⟩ := mapError_parseFail_error (pf s) e h
    exact .inr ⟨s, se, .inr rfl, h1, h2⟩
  | float f => cases h
  | null => exact .inl ⟨_, _, (by injection h with h; exact h.symm)⟩
  | bool b => exact .inl ⟨_, _, (by injection h with h; exact h.symm)⟩
  | arr l => exact .inl ⟨_, _, (by injection h with h; exact h.symm)⟩
  | obj m => exact .inl ⟨_, _, (by injection h with h; exact h.symm)⟩

theorem toInt64_error (pi : StrParse Int) (f2i : FloatLit → Int) (v : Value) (e : Err)
    (h : toInt64 pi f2i v = .error e) :
    (∃ x y, e = .outOfRange x y) ∨
      (∃ s se, (v = .str s ∨ v = .num s) ∧ pi s = .error se ∧ e = .parseFail se) := by
  cases v with
  | str s =>
    obtain ⟨se, h1, h2⟩ := mapError_parseFail_error (pi s) e h
    exact .inr ⟨s, se, .inl rfl, h1, h2⟩
  | num s =>
    obtain ⟨se, h1, h2⟩ := mapError_parseFail_error (pi s) e h
    exact .inr ⟨s, se, .inr rfl, h1, h2⟩
  | float f => cases h
  | null => exact .inl ⟨_, _, (by injection h with h; exact h.symm)⟩
  | bool b => exact .inl ⟨_, _, (by injection h with h; exact h.symm)⟩
  | arr l => exact .inl ⟨_, _, (by injection h with h; exact h.symm)⟩
  | obj m => exact .inl ⟨_, _, (by injection h with h; exact h.symm)⟩

theorem toUint64_error (pu : StrParse Nat) (f2u : FloatLit → Nat) (v : Value) (e : Err)
    (h : toUint64 pu f2u v = .error e) :
    (∃ x y, e = .outOfRange x y) ∨
      (∃ s se, (v = .str s ∨ v = .num s) ∧ pu s = .error se ∧ e = .parseFail se) := by
  cases v with
  | str s =>
    obtain ⟨se, h1, h2⟩ := mapError_parseFail_error (pu s) e h
    exact .inr ⟨s, se, .inl rfl, h1, h2⟩
  | num s =>
    obtain ⟨se, h1, h2⟩ := mapError_parseFail_error (pu s) e h
    exact .inr ⟨s, se, .inr rfl, h1, h2⟩
  | float f => cases h
  | null => exact .inl ⟨_, _, (by injection h with h; exact h.symm)⟩
  | bool b => exact .inl ⟨_, _, (by injection h with h; exact h.symm)⟩
  | arr l => exact .inl ⟨_, _, (by injection h with h; exact h.symm)⟩
  | obj m => exact .inl ⟨_, _, (by injection h with h; exact h.symm)⟩

theorem toString_error (v : Value) (e : Err) (h : toString v = .error e) :
    ∃ x y, e = .outOfRange x y := by
  cases v with
  | str s => cases h
  | null => exact ⟨_, _, (by injection h with h; exact h.symm)⟩
  | bool b => exact ⟨_, _, (by injection h with h; exact h.symm)⟩
  | float f => exact ⟨_, _, (by injection h with h; exact h.symm)⟩
  | num s => exact ⟨_, _, (by injection h with h; exact h.symm)⟩
  | arr l => exact ⟨_, _, (by injection h with h; exact h.symm)⟩
  | obj m => exact ⟨_, _, (by injection h with h; exact h.symm)⟩

theorem toString_ok (v : Value) (s : String) (h : toString v = .ok s) : v = .str s := by
  cases v with
  | str s2 =>
    injection h with h2
    rw [h2]
  | null => cases h
  | bool b => cases h
  | float f => cases h
  | num s2 => cases h
  | arr l => cases h
  | obj m => cases h

theorem strsOf_error : ∀ (l : List Value) (e : Err), strsOf l = .error e →
    ∃ x y, e = .outOfRange x y := by
  intro l
  induction l with
  | nil => intro e h; cases h
  | cons v vs ih =>
    intro e h
    simp only [strsOf] at h
    cases hv : toString v with
    | error e2 =>
      rw [hv] at h
      injection h with h
      exact h ▸ toString_error v e2 hv
    | ok s =>
      rw [hv] at h
      cases hrest : strsOf vs with
      | error e2 =>
        rw [hrest] at h
        injection h with h
        exact h ▸ ih e2 hrest
      | ok rest =>
        rw [hrest] at h
        cases h


theorem runTokens_nil (st : UState) : runTokens st [] = st := rfl

theorem runTokens_cons (st : UState) (tok : Token) (ts : List Token) :
    runTokens st (tok :: ts) = runTokens (ustep st tok) ts := rfl

theorem runTokens_append (st : UState) (a b : List Token) :
    runTokens st (a ++ b) = runTokens (runTokens st a) b := by
  simp [runTokens]

theorem ustep_start (tr : List String) (t : List (String × String)) (d0 : String) (g : Bool)
    (n : String) : ustep ⟨tr, t, d0, g⟩ (.start n) = ⟨tr ++ [n], t, d0, true⟩ := rfl

theorem ustep_char (st : UState) (s : String) : ustep st (.chardata s) = { st with data := s } :=
  rfl

theorem ustep_end_grow (tr : List String) (k : String) (t : List (String × String))
    (d0 : String) (n : String) :
    ustep ⟨tr ++ [k], t, d0, true⟩ (.endElem n)
      = ⟨tr, assocSet t (goJoin xmlLevelSep (tr ++ [k])) d0, d0, false⟩ := by
  simp [ustep, List.getLastD_concat, List.dropLast_concat]

theorem ustep_end_nogrow (tr : List String) (k : String) (t : List (String × String))
    (d0 : String) (n : String) :
    ustep ⟨tr ++ [k], t, d0, false⟩ (.endElem n) = ⟨tr, t, d0, false⟩ := by
  simp [ustep, List.dropLast_concat]

theorem encodeLeaf_head (k s : String) : ∃ ts, encodeLeaf k s = .start k :: ts := by
  unfold encodeLeaf
  split_ifs
  · exact ⟨_, rfl⟩
  · exact ⟨_, rfl⟩

theorem marshallBody_head_start (k : String) (v : Value) (rest : Doc) (sep : String) :
    ∃ ts, marshallBody ((k, v) :: rest) sep = .start k :: ts := by
  cases v with
  | obj m2 =>
    refine ⟨(marshallBody m2 sep ++ [Token.endElem k]) ++ marshallBody rest sep, ?_⟩
    simp [marshallBody, marshallXML]
  | null =>
    obtain ⟨ts, hts⟩ := encodeLeaf_head k (fmtString .null sep)
    exact ⟨ts ++ marshallBody rest sep, by simp [marshallBody, hts]⟩
  | bool b =>
    obtain ⟨ts, hts⟩ := encodeLeaf_head k (fmtString (.bool b) sep)
    exact ⟨ts ++ marshallBody rest sep, by simp [marshallBody, hts]⟩
  | float f =>
    obtain ⟨ts, hts⟩ := encodeLeaf_head k (fmtString (.float f) sep)
    exact ⟨ts ++ marshallBody rest sep, by simp [marshallBody, hts]⟩
  | num s =>
    obtain ⟨ts, hts⟩ := encodeLeaf_head k (fmtString (.num s) sep)
    exact ⟨ts ++ marshallBody rest sep, by simp [marshallBody, hts]⟩
  | str s =>
    obtain ⟨ts, hts⟩ := encodeLeaf_head k (fmtString (.str s) sep)
    exact ⟨ts ++ marshallBody rest sep, by simp [marshallBody, hts]⟩
  | arr l =>
    obtain ⟨ts, hts⟩ := encodeLeaf_head k (fmtString (.arr l) sep)
    exact ⟨ts ++ marshallBody rest sep, by simp [marshallBody, hts]⟩

theorem runTokens_body_grow (m : Doc) (hne : m ≠ []) (sep : String) (tr : List String)
    (t : List (String × String)) (d0 : String) (g : Bool) :
    runTokens ⟨tr, t, d0, g⟩ (marshallBody m sep)
      = runTokens ⟨tr, t, d0, false⟩ (marshallBody m sep) := by
  obtain ⟨e, rest, rfl⟩ := List.exists_cons_of_ne_nil hne
  obtain ⟨k, v⟩ := e
  obtain ⟨ts, hts⟩ := marshallBody_head_start k v rest sep
  rw [hts, runTokens_cons, runTokens_cons, ustep_start, ustep_start]

theorem nodupKeys_append_left (x y : List (String × α)) (h : nodupKeys (x ++ y) = true) :
    nodupKeys x = true := by
  induction x with
  | nil => rfl
  | cons e rest ih =>
    obtain ⟨k, v⟩ := e
    have h2 : (!(hasKey (rest ++ y) k) && nodupKeys (rest ++ y)) = true := h
    rw [Bool.and_eq_true, Bool.not_eq_true'] at h2
    have hk : hasKey rest k = false := by
      have := h2.1
      rw [hasKey_append] at this
      exact (Bool.or_eq_false_iff.mp this).1
    show (!(hasKey rest k) && nodupKeys rest) = true
    rw [Bool.and_eq_true, Bool.not_eq_true']
    exact ⟨hk, ih h2.2⟩

theorem nodupKeys_middle (a b : List (String × α)) (k0 : String) (v0 : α)
    (h : nodupKeys (a ++ (k0, v0) :: b) = true) : hasKey a k0 = false := by
  induction a with
  | nil => rfl
  | cons e rest ih =>
    obtain ⟨k1, v1⟩ := e
    have h2 : (!(hasKey (rest ++ (k0, v0) :: b) k1) && nodupKeys (rest ++ (k0, v0) :: b))
        = true := h
    rw [Bool.and_eq_true, Bool.not_eq_true'] at h2
    have h1 := h2.1
    rw [hasKey_append] at h1
    rcases Bool.or_eq_false_iff.mp h1 with ⟨_, h3⟩
    have hne : (k1 == k0) = false := by
      have h4 : (k0 == k1 || hasKey b k1) = false := h3
      rcases Bool.or_eq_false_iff.mp h4 with ⟨h5, _⟩
      exact beq_eq_false_iff_ne.mpr (Ne.symm (beq_eq_false_iff_ne.mp h5))
    simp [hasKey, hne, ih h2.2]

theorem lin_nil (sep : String) (tr : List String) : lin sep tr [] = [] := by
  simp [lin, linRel]

theorem lin_cons_str (sep : String) (tr : List String) (k s : String) (rest : Doc) :
    lin sep tr ((k, .str s) :: rest)
      = (goJoin xmlLevelSep (tr ++ [k]), s) :: lin sep tr rest := by
  simp [lin, linRel, fmtString]

theorem lin_cons_obj (sep : String) (tr : List String) (k : String) (m2 rest : Doc) :
    lin sep tr ((k, .obj m2) :: rest) = lin sep (tr ++ [k]) m2 ++ lin sep tr rest := by
  simp only [lin, linRel, List.map_append, List.map_map]
  congr 1
  apply List.map_congr_left
  intro p _
  simp only [Function.comp_apply]
  rw [List.append_cons]

theorem run_marshallBody (sep : String) :
    ∀ (m : Doc), goodEntries m = true →
    ∀ (tr : List String) (t : List (String × String)) (d0 : String),
      nodupKeys (t ++ lin sep tr m) = true →
      ∃ d1, runTokens ⟨tr, t, d0, false⟩ (marshallBody m sep)
        = ⟨tr, t ++ lin sep tr m, d1, false⟩
  | [], _, tr, t, d0, _ => by
    refine ⟨d0, ?_⟩
    have h1 : marshallBody [] sep = [] := by simp [marshallBody]
    rw [h1, runTokens_nil, lin_nil, List.append_nil]
  | (k, .str s) :: rest, hg, tr, t, d0, hnd => by
    simp only [goodEntries] at hg
    rw [Bool.and_eq_true, Bool.and_eq_true] at hg
    obtain ⟨⟨hk, hs⟩, hgrest⟩ := hg
    simp only [goodVal] at hs
    have hsne : (s == "") = false := by
      rw [Bool.not_eq_true'] at hs
      exact hs
    have hbody : marshallBody ((k, .str s) :: rest) sep
        = [Token.start k, Token.chardata s, Token.endElem k] ++ marshallBody rest sep := by
      simp [marshallBody, encodeLeaf, fmtString, hsne]
    rw [hbody, runTokens_append]
    have hstep : runTokens ⟨tr, t, d0, false⟩ [Token.start k, Token.chardata s, Token.endElem k]
        = ⟨tr, assocSet t (goJoin xmlLevelSep (tr ++ [k])) s, s, false⟩ := by
      have e1 : ustep ⟨tr, t, d0, false⟩ (.start k) = ⟨tr ++ [k], t, d0, true⟩ := rfl
      have e2 : ustep ⟨tr ++ [k], t, d0, true⟩ (.chardata s) = ⟨tr ++ [k], t, s, true⟩ := rfl
      rw [runTokens_cons, e1, runTokens_cons, e2, runTokens_cons, ustep_end_grow, runTokens_nil]
    rw [hstep]
    rw [lin_cons_str] at hnd ⊢
    have hfresh : hasKey t (goJoin xmlLevelSep (tr ++ [k])) = false :=
      nodupKeys_middle t (lin sep tr rest) _ s hnd
    rw [assocSet_fresh _ _ _ hfresh]
    have hnd2 : nodupKeys ((t ++ [(goJoin xmlLevelSep (tr ++ [k]), s)]) ++ lin sep tr rest)
        = true := by
      rw [← List.append_cons]
      exact hnd
    obtain ⟨d1, hrec⟩ := run_marshallBody sep rest hgrest tr
      (t ++ [(goJoin xmlLevelSep (tr ++ [k]), s)]) s hnd2
    refine ⟨d1, ?_⟩
    rw [hrec, ← List.append_cons]
  | (k, .obj m2) :: rest, hg, tr, t, d0, hnd => by
    simp only [goodEntries] at hg
    rw [Bool.and_eq_true, Bool.and_eq_true] at hg
    obtain ⟨⟨hk, hv⟩, hgrest⟩ := hg
    simp only [goodVal] at hv
    rw [Bool.and_eq_true, Bool.and_eq_true] at hv
    obtain ⟨⟨hne2, hnd2⟩, hg2⟩ := hv
    have hm2ne : m2 ≠ [] := by
      intro hnil
      rw [hnil] at hne2
      simp at hne2
    have hbody : marshallBody ((k, .obj m2) :: rest) sep
        = [Token.start k] ++ marshallBody m2 sep ++ [Token.endElem k]
          ++ marshallBody rest sep := by
      simp [marshallBody, marshallXML]
    rw [hbody, runTokens_append, runTokens_append, runTokens_append]
    have hstart : runTokens ⟨tr, t, d0, false⟩ [Token.start k] = ⟨tr ++ [k], t, d0, true⟩ := by
      rw [runTokens_cons, ustep_start, runTokens_nil]
    rw [hstart, runTokens_body_grow m2 hm2ne]
    rw [lin_cons_obj] at hnd ⊢
    have hnd3 : nodupKeys (t ++ lin sep (tr ++ [k]) m2) = true := by
      refine nodupKeys_append_left _ (lin sep tr rest) ?_
      rw [List.append_assoc]
      exact hnd
    obtain ⟨d1, hrec1⟩ := run_marshallBody sep m2 hg2 (tr ++ [k]) t d0 hnd3
    rw [hrec1]
    have hend : runTokens ⟨tr ++ [k], t ++ lin sep (tr ++ [k]) m2, d1, false⟩ [Token.endElem k]
        = ⟨tr, t ++ lin sep (tr ++ [k]) m2, d1, false⟩ := by
      rw [runTokens_cons, ustep_end_nogrow, runTokens_nil]
    rw [hend]
    have hnd4 : nodupKeys ((t ++ lin sep (tr ++ [k]) m2) ++ lin sep tr rest) = true := by
      rw [List.append_assoc]
      exact hnd
    obtain ⟨d2, hrec2⟩ := run_marshallBody sep rest hgrest tr
      (t ++ lin sep (tr ++ [k]) m2) d1 hnd4
    refine ⟨d2, ?_⟩
    rw [hrec2, List.append_assoc]
  | (k, .null) :: rest, hg, tr, t, d0, hnd => by simp [goodEntries, goodVal] at hg
  | (k, .bool b) :: rest, hg, tr, t, d0, hnd => by simp [goodEntries, goodVal] at hg
  | (k, .float f) :: rest, hg, tr, t, d0, hnd => by simp [goodEntries, goodVal] at hg
  | (k, .num s) :: rest, hg, tr, t, d0, hnd => by simp [goodEntries, goodVal] at hg
  | (k, .arr l) :: rest, hg, tr, t, d0, hnd => by simp [goodEntries, goodVal] at hg
termination_by m => sizeOf m
decreasing_by
  all_goals simp_wf
  all_goals omega


theorem strEta (s : String) : String.mk s.data = s := by
  cases s
  rfl

theorem goodKey_iff (k : String) : goodKey k = true ↔ ∀ c ∈ k.data, c ≠ '>' := by
  simp only [goodKey, List.all_eq_true, Bool.not_eq_true']
  constructor
  · intro h c hc
    exact beq_eq_false_iff_ne.mp (h c hc)
  · intro h c hc
    exact beq_eq_false_iff_ne.mpr (h c hc)

theorem splitPathAux_no_sep : ∀ (w cs acc : List Char), (∀ c ∈ w, c ≠ '>') →
    splitPathAux (w ++ cs) acc = splitPathAux cs (w.reverse ++ acc) := by
  intro w
  induction w with
  | nil => intro cs acc _; simp
  | cons c w2 ih =>
    intro cs acc hw
    have hc : (c == '>') = false :=
      beq_eq_false_iff_ne.mpr (hw c (List.mem_cons_self _ _))
    simp only [List.cons_append, splitPathAux, hc, Bool.false_eq_true, if_false]
    show splitPathAux (w2 ++ cs) (c :: acc) = splitPathAux cs ((c :: w2).reverse ++ acc)
    rw [ih cs (c :: acc) (fun x hx => hw x (List.mem_cons_of_mem _ hx))]
    simp

theorem splitPath_join : ∀ (l : List String), l ≠ [] → (∀ s ∈ l, goodKey s = true) →
    splitPath (goJoin xmlLevelSep l) = l := by
  intro l
  induction l with
  | nil => intro h _; exact absurd rfl h
  | cons s rest ih =>
    intro _ hk
    have hs : ∀ c ∈ s.data, c ≠ '>' :=
      (goodKey_iff s).mp (hk s (List.mem_cons_self _ _))
    cases rest with
    | nil =>
      show (splitPathAux (goJoin xmlLevelSep [s]).data []).map String.mk = [s]
      have h1 : (goJoin xmlLevelSep [s]).data = s.data ++ [] := by simp [goJoin]
      rw [h1, splitPathAux_no_sep s.data [] [] hs]
      simp [splitPathAux, strEta]
    | cons r rest2 =>
      have hdata : (goJoin xmlLevelSep (s :: r :: rest2)).data
          = s.data ++ '>' :: (goJoin xmlLevelSep (r :: rest2)).data := by
        show (s ++ xmlLevelSep ++ goJoin xmlLevelSep (r :: rest2)).data
          = s.data ++ '>' :: (goJoin xmlLevelSep (r :: rest2)).data
        simp [xmlLevelSep]
      show (splitPathAux (goJoin xmlLevelSep (s :: r :: rest2)).data []).map String.mk
          = s :: r :: rest2
      rw [hdata, splitPathAux_no_sep s.data _ [] hs]
      have hsep : splitPathAux ('>' :: (goJoin xmlLevelSep (r :: rest2)).data)
          (s.data.reverse ++ [])
          = (s.data.reverse ++ []).reverse
            :: splitPathAux (goJoin xmlLevelSep (r :: rest2)).data [] := by
        simp [splitPathAux]
      rw [hsep]
      have hih := ih (by simp) (fun x hx => hk x (List.mem_cons_of_mem _ hx))
      simp only [List.append_nil, List.reverse_reverse, List.map_cons, strEta]
      rw [show (splitPathAux (goJoin xmlLevelSep (r :: rest2)).data []).map String.mk
        = splitPath (goJoin xmlLevelSep (r :: rest2)) from rfl, hih]

theorem hasKey_false_assocGet_none (m : List (String × α)) (k : String)
    (h : hasKey m k = false) : assocGet m k = none := by
  induction m with
  | nil => rfl
  | cons e rest ih =>
    obtain ⟨k1, v1⟩ := e
    have h2 : (k1 == k || hasKey rest k) = false := h
    rcases Bool.or_eq_false_iff.mp h2 with ⟨h3, h4⟩
    simp [assocGet, h3, ih h4]

theorem assocGet_append_fresh (out : List (String × α)) (k : String) (x : α)
    (h : hasKey out k = false) : assocGet (out ++ [(k, x)]) k = some x := by
  induction out with
  | nil => simp [assocGet]
  | cons e rest ih =>
    obtain ⟨k1, v1⟩ := e
    have h2 : (k1 == k || hasKey rest k) = false := h
    rcases Bool.or_eq_false_iff.mp h2 with ⟨h3, h4⟩
    simp only [List.cons_append, assocGet, h3, Bool.false_eq_true, if_false]
    exact ih h4

theorem assocSet_append_snoc (out : List (String × α)) (k : String) (x y : α)
    (h : hasKey out k = false) : assocSet (out ++ [(k, x)]) k y = out ++ [(k, y)] := by
  have hk : hasKey (out ++ [(k, x)]) k = true := by
    rw [hasKey_append]
    simp [hasKey]
  simp only [assocSet, hk, if_pos, List.map_append]
  congr 1
  · conv_rhs => rw [← List.map_id out]
    apply List.map_congr_left
    intro p hp
    have hne : p.1 ≠ k := (hasKey_eq_false_iff out k).mp h p hp
    simp [beq_eq_false_iff_ne.mpr hne]
  · simp

theorem expandRel_nil (out : Doc) : expandRel out [] = some out := rfl

theorem expandRel_noneFold : ∀ es : List (List String × String),
    es.foldl
      (fun acc ps => acc.bind (fun o => mvAssign o ps.1.dropLast (ps.1.getLastD "") ps.2))
      none = none := by
  intro es
  induction es with
  | nil => rfl
  | cons e rest ih => simpa using ih

theorem expandRel_cons (out : Doc) (p : List String) (s : String)
    (es : List (List String × String)) :
    expandRel out ((p, s) :: es)
      = (mvAssign out p.dropLast (p.getLastD "") s).bind (fun o => expandRel o es) := by
  have key : expandRel out ((p, s) :: es)
      = es.foldl
          (fun acc ps => acc.bind (fun o => mvAssign o ps.1.dropLast (ps.1.getLastD "") ps.2))
          (mvAssign out p.dropLast (p.getLastD "") s) := rfl
  cases h : mvAssign out p.dropLast (p.getLastD "") s with
  | none =>
    rw [key, h]
    exact expandRel_noneFold es
  | some o2 =>
    rw [key, h]
    rfl

theorem expandRel_append (out : Doc) (a b : List (List String × String)) :
    expandRel out (a ++ b) = (expandRel out a).bind (fun o => expandRel o b) := by
  induction a generalizing out with
  | nil => simp [expandRel_nil]
  | cons e rest ih =>
    obtain ⟨p, s⟩ := e
    rw [List.cons_append, expandRel_cons, expandRel_cons]
    cases h : mvAssign out p.dropLast (p.getLastD "") s with
    | none => rfl
    | some o2 => exact ih o2

theorem expanded_noneFold : ∀ temp : List (String × String),
    temp.foldl
      (fun acc kv => acc.bind (fun o =>
        mvAssign o (((splitPath kv.1).drop 1).dropLast) ((splitPath kv.1).getLastD "") kv.2))
      none = none := by
  intro temp
  induction temp with
  | nil => rfl
  | cons e rest ih => simpa using ih

theorem expanded_cons (kk vv : String) (rest : List (String × String)) (out : Doc) :
    expanded ((kk, vv) :: rest) out
      = (mvAssign out (((splitPath kk).drop 1).dropLast) ((splitPath kk).getLastD "") vv).bind
          (fun o2 => expanded rest o2) := by
  have key : expanded ((kk, vv) :: rest) out
      = rest.foldl
          (fun acc kv => acc.bind (fun o =>
            mvAssign o (((splitPath kv.1).drop 1).dropLast) ((splitPath kv.1).getLastD "") kv.2))
          (mvAssign out (((splitPath kk).drop 1).dropLast) ((splitPath kk).getLastD "") vv) := rfl
  cases h : mvAssign out (((splitPath kk).drop 1).dropLast) ((splitPath kk).getLastD "") vv with
  | none =>
    rw [key, h]
    exact expanded_noneFold rest
  | some o2 =>
    rw [key, h]
    rfl


theorem mv_descend (out : Doc) (k : String) (c : Doc) (w : List String) (key v : String)
    (h : assocGet out k = some (.obj c) ∨ (assocGet out k = none ∧ c = [])) :
    mvAssign out (k :: w) key v
      = (mvAssign c w key v).map (fun i => assocSet out k (.obj i)) := by
  rcases h with h | ⟨h, rfl⟩
  · simp [mvAssign, h]
  · simp [mvAssign, h]

theorem getLastD_cons_tail (k b : String) (p2 : List String) :
    (k :: b :: p2).getLastD "" = (b :: p2).getLastD "" := by
  rw [List.getLastD_cons]
  exact getLastD_cons_irrel b p2 k ""

theorem expandRel_under_aux (k : String) (out : Doc) (hfresh : hasKey out k = false) :
    ∀ (es : List (List String × String)) (c : Doc), (∀ ps ∈ es, ps.1 ≠ []) →
    expandRel (out ++ [(k, .obj c)]) (es.map (fun p => (k :: p.1, p.2)))
      = (expandRel c es).map (fun i => out ++ [(k, .obj i)]) := by
  intro es
  induction es with
  | nil => intro c _; simp [expandRel_nil]
  | cons e es2 ih =>
    intro c hps
    obtain ⟨p, s⟩ := e
    obtain ⟨b, p2, rfl⟩ : ∃ b p2, p = b :: p2 := by
      cases p with
      | nil => exact absurd rfl (hps ([], s) (List.mem_cons_self _ _))
      | cons b p2 => exact ⟨b, p2, rfl⟩
    simp only [List.map_cons]
    rw [expandRel_cons, expandRel_cons]
    have hdl : (k :: b :: p2).dropLast = k :: (b :: p2).dropLast := rfl
    rw [hdl, getLastD_cons_tail]
    rw [mv_descend (out ++ [(k, .obj c)]) k c ((b :: p2).dropLast) ((b :: p2).getLastD "") s
      (.inl (assocGet_append_fresh out k _ hfresh))]
    cases hmv : mvAssign c ((b :: p2).dropLast) ((b :: p2).getLastD "") s with
    | none => rfl
    | some c1 =>
      rw [show ((some c1).map (fun i => assocSet (out ++ [(k, Value.obj c)]) k (.obj i))).bind
          (fun o2 => expandRel o2 (es2.map (fun p => (k :: p.1, p.2))))
        = expandRel (assocSet (out ++ [(k, Value.obj c)]) k (.obj c1))
            (es2.map (fun p => (k :: p.1, p.2))) from rfl]
      rw [assocSet_append_snoc out k _ _ hfresh]
      rw [ih c1 (fun ps hps2 => hps ps (List.mem_cons_of_mem _ hps2))]
      rfl

theorem expandRel_under (k : String) (es : List (List String × String)) (out : Doc)
    (hfresh : hasKey out k = false) (hne : es ≠ []) (hps : ∀ ps ∈ es, ps.1 ≠ []) :
    expandRel out (es.map (fun p => (k :: p.1, p.2)))
      = (expandRel [] es).map (fun i => out ++ [(k, .obj i)]) := by
  obtain ⟨e, es2, rfl⟩ := List.exists_cons_of_ne_nil hne
  obtain ⟨p, s⟩ := e
  obtain ⟨b, p2, rfl⟩ : ∃ b p2, p = b :: p2 := by
    cases p with
    | nil => exact absurd rfl (hps ([], s) (List.mem_cons_self _ _))
    | cons b p2 => exact ⟨b, p2, rfl⟩
  simp only [List.map_cons]
  rw [expandRel_cons, expandRel_cons]
  have hdl : (k :: b :: p2).dropLast = k :: (b :: p2).dropLast := rfl
  rw [hdl, getLastD_cons_tail]
  rw [mv_descend out k [] ((b :: p2).dropLast) ((b :: p2).getLastD "") s
    (.inr ⟨hasKey_false_assocGet_none out k hfresh, rfl⟩)]
  cases hmv : mvAssign [] ((b :: p2).dropLast) ((b :: p2).getLastD "") s with
  | none => rfl
  | some c1 =>
    rw [show ((some c1).map (fun i => assocSet out k (.obj i))).bind
        (fun o2 => expandRel o2 (es2.map (fun p => (k :: p.1, p.2))))
      = expandRel (assocSet out k (.obj c1)) (es2.map (fun p => (k :: p.1, p.2))) from rfl]
    rw [assocSet_fresh out k _ hfresh]
    rw [expandRel_under_aux k out hfresh es2 c1
      (fun ps hps2 => hps ps (List.mem_cons_of_mem _ hps2))]
    rfl


theorem linRel_cons_str2 (sep : String) (k s : String) (rest : Doc) :
    linRel sep ((k, .str s) :: rest) = ([k], s) :: linRel sep rest := by
  simp [linRel, fmtString]

theorem linRel_cons_obj2 (sep : String) (k : String) (m2 rest : Doc) :
    linRel sep ((k, .obj m2) :: rest)
      = (linRel sep m2).map (fun p => (k :: p.1, p.2)) ++ linRel sep rest := by
  simp [linRel]

theorem goodEntries_cons_parts {k : String} {v : Value} {rest : Doc}
    (hg : goodEntries ((k, v) :: rest) = true) :
    goodKey k = true ∧ goodVal v = true ∧ goodEntries rest = true := by
  simp only [goodEntries] at hg
  rw [Bool.and_eq_true, Bool.and_eq_true] at hg
  exact ⟨hg.1.1, hg.1.2, hg.2⟩

theorem goodVal_obj_parts {m2 : Doc} (hv : goodVal (.obj m2) = true) :
    m2 ≠ [] ∧ nodupKeys m2 = true ∧ goodEntries m2 = true := by
  simp only [goodVal] at hv
  rw [Bool.and_eq_true, Bool.and_eq_true] at hv
  refine ⟨?_, hv.1.2, hv.2⟩
  intro hnil
  rw [hnil] at hv
  simp at hv

theorem goodVal_str_ne {s : String} (hv : goodVal (.str s) = true) : s ≠ "" := by
  simp only [goodVal, Bool.not_eq_true'] at hv
  exact beq_eq_false_iff_ne.mp hv

theorem linRel_ne_nil (sep : String) :
    ∀ (m : Doc), goodEntries m = true → m ≠ [] → linRel sep m ≠ []
  | [], _, hne => absurd rfl hne
  | (k, .str s) :: rest, _, _ => by
    rw [linRel_cons_str2]
    exact List.cons_ne_nil _ _
  | (k, .obj m2) :: rest, hg, _ => by
    obtain ⟨hk, hv, hgrest⟩ := goodEntries_cons_parts hg
    obtain ⟨hm2ne, hnd2, hg2⟩ := goodVal_obj_parts hv
    rw [linRel_cons_obj2]
    intro hcontra
    rcases List.append_eq_nil.mp hcontra with ⟨hmap, _⟩
    rw [List.map_eq_nil_iff] at hmap
    exact linRel_ne_nil sep m2 hg2 hm2ne hmap
  | (k, .null) :: rest, hg, _ => by simp [goodEntries, goodVal] at hg
  | (k, .bool b) :: rest, hg, _ => by simp [goodEntries, goodVal] at hg
  | (k, .float f) :: rest, hg, _ => by simp [goodEntries, goodVal] at hg
  | (k, .num s) :: rest, hg, _ => by simp [goodEntries, goodVal] at hg
  | (k, .arr l) :: rest, hg, _ => by simp [goodEntries, goodVal] at hg
termination_by m => sizeOf m
decreasing_by
  all_goals simp_wf
  all_goals omega

theorem linRel_paths_good (sep : String) :
    ∀ (m : Doc), goodEntries m = true →
    ∀ ps ∈ linRel sep m, ps.1 ≠ [] ∧ ∀ seg ∈ ps.1, goodKey seg = true
  | [], _, ps, hps => by simp [linRel] at hps
  | (k, .str s) :: rest, hg, ps, hps => by
    obtain ⟨hk, hv, hgrest⟩ := goodEntries_cons_parts hg
    rw [linRel_cons_str2] at hps
    rcases List.mem_cons.mp hps with rfl | hps2
    · refine ⟨List.cons_ne_nil _ _, fun seg hseg => ?_⟩
      rcases List.mem_cons.mp hseg with rfl | hseg2
      · exact hk
      · cases hseg2
    · exact linRel_paths_good sep rest hgrest ps hps2
  | (k, .obj m2) :: rest, hg, ps, hps => by
    obtain ⟨hk, hv, hgrest⟩ := goodEntries_cons_parts hg
    obtain ⟨hm2ne, hnd2, hg2⟩ := goodVal_obj_parts hv
    rw [linRel_cons_obj2] at hps
    rcases List.mem_append.mp hps with hps2 | hps2
    · obtain ⟨q, hq, rfl⟩ := List.mem_map.mp hps2
      obtain ⟨hqne, hqgood⟩ := linRel_paths_good sep m2 hg2 q hq
      refine ⟨List.cons_ne_nil _ _, fun seg hseg => ?_⟩
      rcases List.mem_cons.mp hseg with rfl | hseg2
      · exact hk
      · exact hqgood seg hseg2
    · exact linRel_paths_good sep rest hgrest ps hps2
  | (k, .null) :: rest, hg, ps, hps => by simp [goodEntries, goodVal] at hg
  | (k, .bool b) :: rest, hg, ps, hps => by simp [goodEntries, goodVal] at hg
  | (k, .float f) :: rest, hg, ps, hps => by simp [goodEntries, goodVal] at hg
  | (k, .num s2) :: rest, hg, ps, hps => by simp [goodEntries, goodVal] at hg
  | (k, .arr l) :: rest, hg, ps, hps => by simp [goodEntries, goodVal] at hg
termination_by m => sizeOf m
decreasing_by
  all_goals simp_wf
  all_goals omega

theorem linRel_head (sep : String) :
    ∀ (m : Doc), goodEntries m = true →
    ∀ ps ∈ linRel sep m, hasKey m (ps.1.headD "") = true
  | [], _, ps, hps => by simp [linRel] at hps
  | (k, .str s) :: rest, hg, ps, hps => by
    obtain ⟨hk, hv, hgrest⟩ := goodEntries_cons_parts hg
    rw [linRel_cons_str2] at hps
    rcases List.mem_cons.mp hps with rfl | hps2
    · show (k == (([k] : List String).headD "") || hasKey rest (([k] : List String).headD ""))
        = true
      simp
    · have hthis := linRel_head sep rest hgrest ps hps2
      show (k == ps.1.headD "" || hasKey rest (ps.1.headD "")) = true
      rw [hthis, Bool.or_true]
  | (k, .obj m2) :: rest, hg, ps, hps => by
    obtain ⟨hk, hv, hgrest⟩ := goodEntries_cons_parts hg
    obtain ⟨hm2ne, hnd2, hg2⟩ := goodVal_obj_parts hv
    rw [linRel_cons_obj2] at hps
    rcases List.mem_append.mp hps with hps2 | hps2
    · obtain ⟨q, hq, rfl⟩ := List.mem_map.mp hps2
      show (k == ((k :: q.1).headD "") || hasKey rest ((k :: q.1).headD "")) = true
      simp
    · have hthis := linRel_head sep rest hgrest ps hps2
      show (k == ps.1.headD "" || hasKey rest (ps.1.headD "")) = true
      rw [hthis, Bool.or_true]
  | (k, .null) :: rest, hg, ps, hps => by simp [goodEntries, goodVal] at hg
  | (k, .bool b) :: rest, hg, ps, hps => by simp [goodEntries, goodVal] at hg
  | (k, .float f) :: rest, hg, ps, hps => by simp [goodEntries, goodVal] at hg
  | (k, .num s2) :: rest, hg, ps, hps => by simp [goodEntries, goodVal] at hg
  | (k, .arr l) :: rest, hg, ps, hps => by simp [goodEntries, goodVal] at hg
termination_by m => sizeOf m
decreasing_by
  all_goals simp_wf
  all_goals omega

theorem linRel_paths_nodup (sep : String) :
    ∀ (m : Doc), goodEntries m = true → nodupKeys m = true →
    ((linRel sep m).map Prod.fst).Nodup
  | [], _, _ => by simp [linRel]
  | (k, .str s) :: rest, hg, hnd => by
    obtain ⟨hk, hv, hgrest⟩ := goodEntries_cons_parts hg
    have hnd2 : (!(hasKey rest k) && nodupKeys rest) = true := hnd
    rw [Bool.and_eq_true, Bool.not_eq_true'] at hnd2
    obtain ⟨hndk, hndrest⟩ := hnd2
    rw [linRel_cons_str2]
    simp only [List.map_cons, List.nodup_cons]
    refine ⟨fun hmem => ?_, linRel_paths_nodup sep rest hgrest hndrest⟩
    obtain ⟨ps, hps, hfst⟩ := List.mem_map.mp hmem
    have hhead := linRel_head sep rest hgrest ps hps
    rw [hfst] at hhead
    simp only [List.headD_cons] at hhead
    rw [hndk] at hhead
    cases hhead
  | (k, .obj m2) :: rest, hg, hnd => by
    obtain ⟨hk, hv, hgrest⟩ := goodEntries_cons_parts hg
    obtain ⟨hm2ne, hndm2, hg2⟩ := goodVal_obj_parts hv
    have hnd2 : (!(hasKey rest k) && nodupKeys rest) = true := hnd
    rw [Bool.and_eq_true, Bool.not_eq_true'] at hnd2
    obtain ⟨hndk, hndrest⟩ := hnd2
    rw [linRel_cons_obj2]
    rw [List.map_append, List.map_map]
    refine List.Nodup.append ?_ (linRel_paths_nodup sep rest hgrest hndrest) ?_
    · have hinner := linRel_paths_nodup sep m2 hg2 hndm2
      have hco : (Prod.fst ∘ fun p => ((k :: p.1, p.2) : List String × String))
          = (fun q : List String => k :: q) ∘ Prod.fst := rfl
      rw [hco, ← List.map_map]
      refine List.Nodup.map ?_ hinner
      intro a b hab
      injection hab
    · intro a ha hb
      obtain ⟨q, hq, rfl⟩ := List.mem_map.mp ha
      obtain ⟨ps, hps, hfst⟩ := List.mem_map.mp hb
      have hhead := linRel_head sep rest hgrest ps hps
      rw [hfst] at hhead
      simp only [Function.comp_apply, List.headD_cons] at hhead
      rw [hndk] at hhead
      cases hhead
  | (k, .null) :: rest, hg, _ => by simp [goodEntries, goodVal] at hg
  | (k, .bool b) :: rest, hg, _ => by simp [goodEntries, goodVal] at hg
  | (k, .float f) :: rest, hg, _ => by simp [goodEntries, goodVal] at hg
  | (k, .num s2) :: rest, hg, _ => by simp [goodEntries, goodVal] at hg
  | (k, .arr l) :: rest, hg, _ => by simp [goodEntries, goodVal] at hg
termination_by m => sizeOf m
decreasing_by
  all_goals simp_wf
  all_goals omega

theorem expandRel_hout2 (out : List (String × Value)) (rest : Doc) (k : String)
    (hout : ∀ kv ∈ rest, hasKey out kv.1 = false) (hndk : hasKey rest k = false)
    (x : Value) : ∀ kv ∈ rest, hasKey (out ++ [(k, x)]) kv.1 = false := by
  intro kv hkv
  rw [hasKey_append]
  have h1 : hasKey out kv.1 = false := hout kv hkv
  have hne : kv.1 ≠ k := (hasKey_eq_false_iff rest k).mp hndk kv hkv
  have h2 : hasKey [(k, x)] kv.1 = false := by
    have hbeq : (k == kv.1) = false := beq_eq_false_iff_ne.mpr (Ne.symm hne)
    simp [hasKey, hbeq]
  rw [h1, h2]
  rfl

theorem expandRel_linRel (sep : String) :
    ∀ (m : Doc), goodEntries m = true → nodupKeys m = true →
    ∀ out : Doc, (∀ kv ∈ m, hasKey out kv.1 = false) →
    expandRel out (linRel sep m) = some (out ++ m)
  | [], _, _, out, _ => by simp [linRel, expandRel_nil]
  | (k, .str s) :: rest, hg, hnd, out, hout => by
    obtain ⟨hk, hv, hgrest⟩ := goodEntries_cons_parts hg
    have hnd2 : (!(hasKey rest k) && nodupKeys rest) = true := hnd
    rw [Bool.and_eq_true, Bool.not_eq_true'] at hnd2
    obtain ⟨hndk, hndrest⟩ := hnd2
    have hfreshk : hasKey out k = false := hout (k, .str s) (List.mem_cons_self _ _)
    rw [linRel_cons_str2, expandRel_cons]
    have hmv : mvAssign out (([k] : List String).dropLast) (([k] : List String).getLastD "") s
        = some (assocSet out k (.str s)) := rfl
    rw [hmv]
    rw [show ((some (assocSet out k (.str s))).bind (fun o => expandRel o (linRel sep rest)))
      = expandRel (assocSet out k (.str s)) (linRel sep rest) from rfl]
    rw [assocSet_fresh out k _ hfreshk]
    have hrec := expandRel_linRel sep rest hgrest hndrest (out ++ [(k, Value.str s)])
      (expandRel_hout2 out rest k (fun kv hkv => hout kv (List.mem_cons_of_mem _ hkv))
        hndk (Value.str s))
    rw [hrec, ← List.append_cons]
  | (k, .obj m2) :: rest, hg, hnd, out, hout => by
    obtain ⟨hk, hv, hgrest⟩ := goodEntries_cons_parts hg
    obtain ⟨hm2ne, hndm2, hg2⟩ := goodVal_obj_parts hv
    have hnd2 : (!(hasKey rest k) && nodupKeys rest) = true := hnd
    rw [Bool.and_eq_true, Bool.not_eq_true'] at hnd2
    obtain ⟨hndk, hndrest⟩ := hnd2
    have hfreshk : hasKey out k = false := hout (k, .obj m2) (List.mem_cons_self _ _)
    rw [linRel_cons_obj2, expandRel_append]
    rw [expandRel_under k (linRel sep m2) out hfreshk
      (linRel_ne_nil sep m2 hg2 hm2ne)
      (fun ps hps => (linRel_paths_good sep m2 hg2 ps hps).1)]
    rw [expandRel_linRel sep m2 hg2 hndm2 [] (fun kv _ => rfl)]
    rw [show (((some (([] : Doc) ++ m2)).map (fun i => out ++ [(k, Value.obj i)])).bind
        (fun o => expandRel o (linRel sep rest)))
      = expandRel (out ++ [(k, Value.obj (([] : Doc) ++ m2))]) (linRel sep rest) from rfl]
    rw [List.nil_append]
    have hrec := expandRel_linRel sep rest hgrest hndrest (out ++ [(k, Value.obj m2)])
      (expandRel_hout2 out rest k (fun kv hkv => hout kv (List.mem_cons_of_mem _ hkv))
        hndk (Value.obj m2))
    rw [hrec, ← List.append_cons]
  | (k, .null) :: rest, hg, _, out, _ => by simp [goodEntries, goodVal] at hg
  | (k, .bool b) :: rest, hg, _, out, _ => by simp [goodEntries, goodVal] at hg
  | (k, .float f) :: rest, hg, _, out, _ => by simp [goodEntries, goodVal] at hg
  | (k, .num s2) :: rest, hg, _, out, _ => by simp [goodEntries, goodVal] at hg
  | (k, .arr l) :: rest, hg, _, out, _ => by simp [goodEntries, goodVal] at hg
termination_by m => sizeOf m
decreasing_by
  all_goals simp_wf
  all_goals omega

theorem lin_keys_nodup (sep : String) (tr : List String) (m : Doc)
    (hg : goodEntries m = true) (hnd : nodupKeys m = true)
    (htr : ∀ s2 ∈ tr, goodKey s2 = true) : nodupKeys (lin sep tr m) = true := by
  rw [nodupKeys_iff]
  have hcomp : (lin sep tr m).map Prod.fst
      = ((linRel sep m).map Prod.fst).map (fun q => goJoin xmlLevelSep (tr ++ q)) := by
    simp only [lin, List.map_map]
    rfl
  rw [hcomp]
  refine List.Nodup.map_on ?_ (linRel_paths_nodup sep m hg hnd)
  intro q1 hq1 q2 hq2 hjoin
  obtain ⟨ps1, hps1, rfl⟩ := List.mem_map.mp hq1
  obtain ⟨ps2, hps2, rfl⟩ := List.mem_map.mp hq2
  obtain ⟨h1ne, h1good⟩ := linRel_paths_good sep m hg ps1 hps1
  obtain ⟨h2ne, h2good⟩ := linRel_paths_good sep m hg ps2 hps2
  have hall1 : ∀ s2 ∈ tr ++ ps1.1, goodKey s2 = true := by
    intro s2 hs2
    rcases List.mem_append.mp hs2 with h | h
    · exact htr s2 h
    · exact h1good s2 h
  have hall2 : ∀ s2 ∈ tr ++ ps2.1, goodKey s2 = true := by
    intro s2 hs2
    rcases List.mem_append.mp hs2 with h | h
    · exact htr s2 h
    · exact h2good s2 h
  have hne1 : tr ++ ps1.1 ≠ [] := by
    intro hcon
    exact h1ne (List.append_eq_nil.mp hcon).2
  have hne2 : tr ++ ps2.1 ≠ [] := by
    intro hcon
    exact h2ne (List.append_eq_nil.mp hcon).2
  have := congrArg splitPath hjoin
  rw [splitPath_join (tr ++ ps1.1) hne1 hall1, splitPath_join (tr ++ ps2.1) hne2 hall2] at this
  exact List.append_cancel_left this

theorem expanded_map_join (name : String) (hname : goodKey name = true) :
    ∀ (es : List (List String × String)) (out : Doc),
    (∀ ps ∈ es, ps.1 ≠ [] ∧ ∀ seg ∈ ps.1, goodKey seg = true) →
    expanded (es.map (fun p => (goJoin xmlLevelSep (name :: p.1), p.2))) out
      = expandRel out es := by
  intro es
  induction es with
  | nil => intro out _; rfl
  | cons e es2 ih =>
    intro out hps
    obtain ⟨p, s⟩ := e
    obtain ⟨hpne, hpgood⟩ := hps (p, s) (List.mem_cons_self _ _)
    obtain ⟨b, p2, rfl⟩ : ∃ b p2, p = b :: p2 := by
      cases p with
      | nil => exact absurd rfl hpne
      | cons b p2 => exact ⟨b, p2, rfl⟩
    simp only [List.map_cons]
    rw [expanded_cons, expandRel_cons]
    have hsplit : splitPath (goJoin xmlLevelSep (name :: b :: p2)) = name :: b :: p2 := by
      refine splitPath_join (name :: b :: p2) (List.cons_ne_nil _ _) ?_
      intro s2 hs2
      rcases List.mem_cons.mp hs2 with rfl | hs3
      · exact hname
      · exact hpgood s2 hs3
    rw [hsplit]
    have hdrop : (name :: b :: p2).drop 1 = b :: p2 := rfl
    rw [hdrop, getLastD_cons_tail]
    cases hmv : mvAssign out ((b :: p2).dropLast) ((b :: p2).getLastD "") s with
    | none => rfl
    | some o2 => exact ih o2 (fun ps hps2 => hps ps (List.mem_cons_of_mem _ hps2))

theorem unmarshal_marshal (name sep : String) (d : Doc)
    (hd : goodVal (.obj d) = true) (hn : goodKey name = true) :
    unmarshalXML (marshalXML name sep d) = some d := by
  obtain ⟨hdne, hnd, hge⟩ := goodVal_obj_parts hd
  have hiE : d.isEmpty = false := by
    cases d with
    | nil => exact absurd rfl hdne
    | cons e rest => rfl
  have hm : marshalXML name sep d
      = Token.start name :: (marshallBody d sep ++ [Token.endElem name]) := by
    simp only [marshalXML, hiE, Bool.false_eq_true, if_false]
    simp [marshallXML]
  rw [hm]
  rw [show unmarshalXML (Token.start name :: (marshallBody d sep ++ [Token.endElem name]))
    = expanded
        (runTokens ⟨[name], [], "", false⟩ (marshallBody d sep ++ [Token.endElem name])).temp
        [] from rfl]
  rw [runTokens_append]
  have htr : ∀ s2 ∈ ([name] : List String), goodKey s2 = true := by
    intro s2 hs2
    rcases List.mem_cons.mp hs2 with rfl | hs3
    · exact hn
    · cases hs3
  have hndlin : nodupKeys (([] : List (String × String)) ++ lin sep [name] d) = true := by
    rw [List.nil_append]
    exact lin_keys_nodup sep [name] d hge hnd htr
  obtain ⟨d1, hrun⟩ := run_marshallBody sep d hge [name] [] "" hndlin
  rw [hrun, List.nil_append]
  have hend : runTokens ⟨[name], lin sep [name] d, d1, false⟩ [Token.endElem name]
      = ⟨[], lin sep [name] d, d1, false⟩ := by
    rw [runTokens_cons, show ([name] : List String) = [] ++ [name] from rfl,
      ustep_end_nogrow, runTokens_nil]
  rw [hend]
  rw [show (⟨[], lin sep [name] d, d1, false⟩ : UState).temp = lin sep [name] d from rfl]
  rw [show lin sep [name] d
    = (linRel sep d).map (fun p => (goJoin xmlLevelSep (name :: p.1), p.2)) from rfl]
  rw [expanded_map_join name hn (linRel sep d) [] (linRel_paths_good sep d hge)]
  rw [expandRel_linRel sep d hge hnd [] (fun kv _ => rfl)]
  rw [List.nil_append]

/-! ## Claim theorems -/

/-- C9: `fmtString` follows the conversion table exactly: booleans render as
`true`/`false`, a float64 renders as its canonical shortest round-tripping
decimal text, a `json.Number` and a string render as their own text, an array
renders as its recursively formatted elements joined by the array separator,
and every other type (null and nested mappings) renders as the empty
string. -/
theorem c9_fmtString_table (sep : String) :
    (∀ b, fmtString (.bool b) sep = (if b then "true" else "false")) ∧
    (∀ f, fmtString (.float f) sep = f.text) ∧
    (∀ s, fmtString (.num s) sep = s) ∧
    (∀ s, fmtString (.str s) sep = s) ∧
    (∀ l, fmtString (.arr l) sep = goJoin sep (l.map (fun v => fmtString v sep))) ∧
    fmtString .null sep = "" ∧
    (∀ m, fmtString (.obj m) sep = "") := by
  refine ⟨fun b => rfl, fun f => rfl, fun s => rfl, fun s => rfl, fun l => ?_, rfl, fun m => rfl⟩
  rw [show fmtString (.arr l) sep = goJoin sep (fmtStrings l sep) from rfl, fmtStrings_eq_map]

/-- C5: `simplify` strips a shared key prefix exactly when the character
before the cut is the separator: `geek_name`/`geek_age` become `name`/`age`,
`geek1`/`geek2` stay unchanged, and maps with zero or one entries are
returned unchanged. -/
theorem c5_simplify_boundary :
    (∀ v1 v2 : Value,
      simplify [("geek_name", v1), ("geek_age", v2)] = [("name", v1), ("age", v2)]) ∧
    (∀ v1 v2 : Value,
      simplify [("geek1", v1), ("geek2", v2)] = [("geek1", v1), ("geek2", v2)]) ∧
    simplify ([] : FlatMap) = [] ∧
    (∀ (k : String) (v : Value), simplify [(k, v)] = [(k, v)]) :=
  ⟨fun v1 v2 => rfl, fun v1 v2 => rfl, rfl, fun k v => rfl⟩

/-- C1: the code under test rejects `json.Number` in the `String` coercion,
so `D.Strings` on an array of `json.Number` fails with the type-mismatch
error instead of succeeding with the numbers' text forms as the claim (and
the repository's own tests `TestToString`/`TestD_Strings`) require. This
theorem evaluates the code at the failing inputs. -/
theorem c1_strings_rejects_number :
    Strings [("numbers", .arr [.num "1"])] ["numbers"]
        = .error (.outOfRange .tyString .tyNumber) ∧
    toString (.num "-42") = .error (.outOfRange .tyString .tyNumber) :=
  ⟨rfl, rfl⟩

/-- C6: `Lookup` with an empty key list fails not-found on any document; any
non-empty key path on an empty document fails not-found; and on every
document and key path the result is either a value or the single not-found
error kind (wrong-shape intermediates and absent keys are never reported as a
type error). -/
theorem c6_lookup_notFound_only :
    (∀ d : Doc, Lookup d [] = .error .notFound) ∧
    (∀ (k : String) (ks : List String), Lookup ([] : Doc) (k :: ks) = .error .notFound) ∧
    (∀ (d : Doc) (keys : List String),
      (∃ v, Lookup d keys = .ok v) ∨ Lookup d keys = .error .notFound) := by
  refine ⟨fun d => rfl, fun k ks => ?_, fun d keys => ?_⟩
  · cases ks <;> rfl
  · cases keys with
    | nil => exact .inr rfl
    | cons k ks =>
      have h := lookupWalk_ok_or_notFound (k :: ks) (.obj d)
      simpa [Lookup] using h

/-- C8: XML-marshalling an empty or nil map produces no tokens (hence zero
bytes), JSON-unmarshalling a nil payload yields a document whose `Flatten` is
absent (`none`, distinct from any present map), and `Flatten` is absent
exactly when the underlying map has no entries. -/
theorem c8_empty_document :
    (∀ name sep : String, marshalXML name sep [] = []) ∧
    (∀ (decode : String → Doc) (norm : String → String) (ign : List (List String)),
      Flatten norm (unmarshalJSON decode none) ign = none) ∧
    (∀ (norm : String → String) (d : Doc) (ign : List (List String)),
      Flatten norm d ign = none ↔ d = []) := by
  refine ⟨fun name sep => rfl, fun decode norm ign => rfl, fun norm d ign => ?_⟩
  cases d with
  | nil => simp [Flatten]
  | cons e rest => simp [Flatten]

/-- C3: on the nested document with `object` holding `a ↦ b` and `c ↦ d`,
ignoring the branch `object c`, `Flatten` returns exactly the single entry
`object_a ↦ b`: the ignored branch is skipped, the surviving path is
snake-cased, and no prefix trim happens with a single surviving key. -/
theorem c3_flatten_example :
    Flatten SnakeCase [("object", .obj [("a", .str "b"), ("c", .str "d")])]
      [["object", "c"]] = some [("object_a", .str "b")] := by
  simp [Flatten, flatten, flattenLoop, flattenEntry, SnakeCase, wordsAux, goJoin,
    levelSep, rootName, simplify, commonPrefix, assocSet, hasKey]

/-- C7 (amended): every error returned by the typed getters and the
type-coercion layer is `ErrNotFound`, an `ErrOutOfRange` wrap, or an
underlying parse error surfaced as-is — a `strconv` error from parsing a
present string or textual-number value, or, for the `Time` getter, the
layout-parse failure of the external time collaborator. In particular
`String` and `Strings` only ever produce the two taxonomy kinds, `Time`'s
errors apart from its surfaced layout-parse failures are also of the two
kinds, while a present string that fails to parse as boolean/float/integer
yields the parser's own error, not a type-mismatch. -/
theorem c7_error_taxonomy (pf : StrParse FloatLit) (pi : StrParse Int) (pu : StrParse Nat)
    (f2i : FloatLit → Int) (f2u : FloatLit → Nat) (d : Doc) (keys : List String) (e : Err) :
    (DBool d keys = .error e →
      e = .notFound ∨ (∃ x y, e = .outOfRange x y) ∨
        (∃ s, Lookup d keys = .ok (.str s) ∧ goParseBool s = .error e ∧
          ∃ se, e = .parseFail se)) ∧
    (DFloat64 pf d keys = .error e →
      e = .notFound ∨ (∃ x y, e = .outOfRange x y) ∨
        (∃ s se, (Lookup d keys = .ok (.str s) ∨ Lookup d keys = .ok (.num s)) ∧
          pf s = .error se ∧ e = .parseFail se)) ∧
    (DInt64 pi f2i d keys = .error e →
      e = .notFound ∨ (∃ x y, e = .outOfRange x y) ∨
        (∃ s se, (Lookup d keys = .ok (.str s) ∨ Lookup d keys = .ok (.num s)) ∧
          pi s = .error se ∧ e = .parseFail se)) ∧
    (DUint64 pu f2u d keys = .error e →
      e = .notFound ∨ (∃ x y, e = .outOfRange x y) ∨
        (∃ s se, (Lookup d keys = .ok (.str s) ∨ Lookup d keys = .ok (.num s)) ∧
          pu s = .error se ∧ e = .parseFail se)) ∧
    (DString d keys = .error e → e = .notFound ∨ ∃ x y, e = .outOfRange x y) ∧
    (Strings d keys = .error e → e = .notFound ∨ ∃ x y, e = .outOfRange x y) ∧
    (∀ (τ ε : Type) (tparse : String → String → Except ε τ) (layout : String) (e2 : Err ⊕ ε),
      DTime tparse layout d keys = .error e2 →
        e2 = .inl .notFound ∨ (∃ x y, e2 = .inl (.outOfRange x y)) ∨
          (∃ s te, Lookup d keys = .ok (.str s) ∧ tparse layout s = .error te
            ∧ e2 = .inr te)) := by
  refine ⟨?_, ?_, ?_, ?_, ?_, ?_, ?_⟩
  · intro h
    rcases bind_error_cases _ _ _ h with hL | ⟨v, hL, hc⟩
    · exact .inl (Lookup_error_eq d keys e hL)
    · rcases toBool_error v e hc with h2 | ⟨s, rfl, h3, h4⟩
      · exact .inr (.inl h2)
      · exact .inr (.inr ⟨s, hL, h3, h4⟩)
  · intro h
    rcases bind_error_cases _ _ _ h with hL | ⟨v, hL, hc⟩
    · exact .inl (Lookup_error_eq d keys e hL)
    · rcases toFloat64_error pf v e hc with h2 | ⟨s, se, hv, h3, h4⟩
      · exact .inr (.inl h2)
      · rcases hv with rfl | rfl
        · exact .inr (.inr ⟨s, se, .inl hL, h3, h4⟩)
        · exact .inr (.inr ⟨s, se, .inr hL, h3, h4⟩)
  · intro h
    rcases bind_error_cases _ _ _ h with hL | ⟨v, hL, hc⟩
    · exact .inl (Lookup_error_eq d keys e hL)
    · rcases toInt64_error pi f2i v e hc with h2 | ⟨s, se, hv, h3, h4⟩
      · exact .inr (.inl h2)
      · rcases hv with rfl | rfl
        · exact .inr (.inr ⟨s, se, .inl hL, h3, h4⟩)
        · exact .inr (.inr ⟨s, se, .inr hL, h3, h4⟩)
  · intro h
    rcases bind_error_cases _ _ _ h with hL | ⟨v, hL, hc⟩
    · exact .inl (Lookup_error_eq d keys e hL)
    · rcases toUint64_error pu f2u v e hc with h2 | ⟨s, se, hv, h3, h4⟩
      · exact .inr (.inl h2)
      · rcases hv with rfl | rfl
        · exact .inr (.inr ⟨s, se, .inl hL, h3, h4⟩)
        · exact .inr (.inr ⟨s, se, .inr hL, h3, h4⟩)
  · intro h
    rcases bind_error_cases _ _ _ h with hL | ⟨v, hL, hc⟩
    · exact .inl (Lookup_error_eq d keys e hL)
    · exact .inr (toString_error v e hc)
  · intro h
    rcases bind_error_cases _ _ _ h with hL | ⟨v, hL, hc⟩
    · exact .inl (Lookup_error_eq d keys e hL)
    · cases v with
      | arr l => exact .inr (strsOf_error l e hc)
      | null => exact .inr ⟨_, _, (by injection hc with hc; exact hc.symm)⟩
      | bool b => exact .inr ⟨_, _, (by injection hc with hc; exact hc.symm)⟩
      | float f => exact .inr ⟨_, _, (by injection hc with hc; exact hc.symm)⟩
      | num s => exact .inr ⟨_, _, (by injection hc with hc; exact hc.symm)⟩
      | str s => exact .inr ⟨_, _, (by injection hc with hc; exact hc.symm)⟩
      | obj m => exact .inr ⟨_, _, (by injection hc with hc; exact hc.symm)⟩
  · intro τ ε tparse layout e2 h
    cases hL : Lookup d keys with
    | error eL =>
      simp only [DTime, hL] at h
      injection h with h2
      rw [← h2, Lookup_error_eq d keys eL hL]
      exact .inl rfl
    | ok m =>
      simp only [DTime, hL] at h
      cases hs : toString m with
      | error eS =>
        simp only [hs] at h
        injection h with h2
        obtain ⟨x, y, hxy⟩ := toString_error m eS hs
        exact .inr (.inl ⟨x, y, by rw [← h2, hxy]⟩)
      | ok s =>
        simp only [hs] at h
        obtain ⟨te, h1, h2⟩ :
            ∃ te, tparse layout s = .error te ∧ e2 = Sum.inr te := by
          cases hp : tparse layout s with
          | error te =>
            rw [hp] at h
            have h4 : (Except.error (Sum.inr te) : Except (Err ⊕ ε) τ) = .error e2 := h
            injection h4 with h5
            exact ⟨te, rfl, h5.symm⟩
          | ok v2 =>
            rw [hp] at h
            have h4 : (Except.ok v2 : Except (Err ⊕ ε) τ) = .error e2 := h
            cases h4
        refine .inr (.inr ⟨s, te, ?_, h1, h2⟩)
        rw [toString_ok m s hs]

/-- Witness for C7 at a concrete input: the `Bool` getter on a present empty
string returns `strconv.ParseBool`'s syntax error, and the taxonomy theorem
applies to it. -/
theorem c7_error_taxonomy_witness :
    DBool [("b", Value.str "")] ["b"] = .error (.parseFail ⟨"ParseBool", "", .errSyn⟩) ∧
    ((Err.parseFail ⟨"ParseBool", "", .errSyn⟩) = .notFound ∨
      (∃ x y, (Err.parseFail ⟨"ParseBool", "", .errSyn⟩) = .outOfRange x y) ∨
      (∃ s, Lookup [("b", Value.str "")] ["b"] = .ok (.str s) ∧
        goParseBool s = .error (.parseFail ⟨"ParseBool", "", .errSyn⟩) ∧
        ∃ se, (Err.parseFail ⟨"ParseBool", "", .errSyn⟩) = .parseFail se)) :=
  ⟨rfl,
    (c7_error_taxonomy (fun s => .error ⟨"ParseFloat", s, .errSyn⟩)
      (fun s => .error ⟨"ParseInt", s, .errSyn⟩) (fun s => .error ⟨"ParseUint", s, .errSyn⟩)
      (fun _ => 0) (fun _ => 0) [("b", Value.str "")] ["b"]
      (.parseFail ⟨"ParseBool", "", .errSyn⟩)).1 rfl⟩

/-- C7 counterexample: the claim as stated is false on the code. The `Bool`
getter on a present-but-unparsable string (the repository's own
`TestToBool`/"Invalid" case) returns `strconv.ParseBool`'s error as-is, which
is neither of the two claimed kinds (`isTwoKinds` is the spec's taxonomy
written as a predicate). -/
theorem c7_counterexample :
    DBool [("b", Value.str "")] ["b"] = .error (.parseFail ⟨"ParseBool", "", .errSyn⟩) ∧
    isTwoKinds (.parseFail ⟨"ParseBool", "", .errSyn⟩) = false :=
  ⟨rfl, rfl⟩

/-- C2 (amended): for every document whose leaves are all non-empty strings
and whose nested mappings are all non-empty with duplicate-free keys that do
not contain the XML level separator `'>'` (and a root element name without
`'>'`), marshalling to XML, unmarshalling the tokens back and flattening
yields the same flat map as flattening the original document — indeed the
round trip reconstructs the document exactly. For other scalar leaves the
code re-types the value as its raw text form, so the equality fails (see the
counterexample for a boolean leaf). -/
theorem c2_xml_roundtrip (norm : String → String) (name sep : String) (d : Doc)
    (ign : List (List String)) (hd : goodVal (.obj d) = true) (hn : goodKey name = true) :
    unmarshalXML (marshalXML name sep d) = some d ∧
    Flatten norm ((unmarshalXML (marshalXML name sep d)).getD []) ign = Flatten norm d ign := by
  have h := unmarshal_marshal name sep d hd hn
  refine ⟨h, ?_⟩
  rw [h, Option.getD_some]

/-- Witness for C2 at a concrete input. -/
theorem c2_xml_roundtrip_witness :
    goodVal (.obj [("object", Value.obj [("a", Value.str "b")])]) = true ∧
    goodKey "d" = true ∧
    (unmarshalXML (marshalXML "d" "|" [("object", Value.obj [("a", Value.str "b")])])
        = some [("object", Value.obj [("a", Value.str "b")])] ∧
      Flatten SnakeCase
          ((unmarshalXML
              (marshalXML "d" "|" [("object", Value.obj [("a", Value.str "b")])])).getD [])
          []
        = Flatten SnakeCase [("object", Value.obj [("a", Value.str "b")])] []) :=
  ⟨by simp [goodVal, goodEntries, nodupKeys, hasKey, goodKey],
    by decide,
    c2_xml_roundtrip SnakeCase "d" "|" [("object", Value.obj [("a", Value.str "b")])] []
      (by simp [goodVal, goodEntries, nodupKeys, hasKey, goodKey]) (by decide)⟩

/-- C2 counterexample: the claim as stated (all scalar leaves, not just
strings) is false on the code. For the document with the single boolean leaf
`b ↦ true`, the XML round trip re-types the leaf as the string `"true"`, so
the flat maps differ. -/
theorem c2_xml_roundtrip_counterexample :
    ¬ (Flatten SnakeCase
          ((unmarshalXML (marshalXML "d" "|" [("b", Value.bool true)])).getD []) []
        = Flatten SnakeCase [("b", Value.bool true)] []) := by
  intro heq
  have htokens : marshalXML "d" "|" [("b", Value.bool true)]
      = [Token.start "d", Token.start "b", Token.chardata "true",
         Token.endElem "b", Token.endElem "d"] := by
    simp [marshalXML, marshallXML, marshallBody, encodeLeaf, fmtString]
  rw [htokens] at heq
  have hunm : unmarshalXML
      [Token.start "d", Token.start "b", Token.chardata "true",
       Token.endElem "b", Token.endElem "d"] = some [("b", Value.str "true")] := rfl
  rw [hunm] at heq
  simp only [Option.getD_some] at heq
  have h2 : Flatten SnakeCase [("b", Value.str "true")] [] = some [("b", Value.str "true")] := by
    simp [Flatten, flatten, flattenLoop, flattenEntry, SnakeCase, wordsAux, goJoin,
      levelSep, rootName, simplify, commonPrefix, assocSet, hasKey]
  have h3 : Flatten SnakeCase [("b", Value.bool true)] [] = some [("b", Value.bool true)] := by
    simp [Flatten, flatten, flattenLoop, flattenEntry, SnakeCase, wordsAux, goJoin,
      levelSep, rootName, simplify, commonPrefix, assocSet, hasKey]
  rw [h2, h3] at heq
  simp at heq

end Flat
